import Mathlib

/-!
StringSlice: a shallow embedding of `src/StringSlice.h`.

The header defines `scottz0r::StringSlice`, a non-owning view (`const char* m_str`,
`unsigned int m_size`) together with the free functions `to_slice` and `get_line`.

The model:

* Storage is a partial map from addresses to bytes.  An address that is not inside a live
  object is unmapped; reading or writing it is undefined behaviour in C++ and a failure
  (`none`) here.  A theorem that holds for every storage therefore also holds for the
  storage in which nothing outside the view is mapped: the operation reads nothing else.
* Pointers are integer addresses, `nullptr` is address `0`.
* `size_type` is `unsigned int` (32 bits): sizes are naturals, arithmetic that the source
  performs in `size_type` is reduced modulo `2 ^ 32`.
* Whether plain `char` is signed is implementation-defined.  It is signed on the usual
  x86 / x86-64 targets (GCC, Clang, MSVC) and unsigned on e.g. ARM Linux.  Every operation
  that converts a `char` to `int` takes the flag `signedChar`.
* Loops are structural recursions on a fuel argument; the entry points supply fuel that the
  loop provably never exhausts, and the theorems prove that a result is produced.
-/

namespace scottz0r

/-- One byte of storage. -/
abbrev Byte := Fin 256

/-- Storage: the byte held at an address, or `none` when the address is not inside a live
object. -/
abbrev Mem := Int → Option Byte

/-- The number of values of `size_type` (`unsigned int`, 32 bits). -/
def sizeMod : Nat := 4294967296

/-- The constant `npos = (size_type)-1`. -/
def npos : Nat := 4294967295

/-- The null pointer. -/
def nullptr : Int := 0

/-- Integral promotion of a `char` holding the bit pattern `b` to `int`: the source's
`(int)m_str[i]` and the operands of `m_str[i] - other.m_str[i]`. -/
def charToInt (signedChar : Bool) (b : Byte) : Int :=
  if signedChar = true ∧ 128 ≤ b.val then (b.val : Int) - 256 else (b.val : Int)

/-- Conversion of a pointer difference or an `int` to `size_type`. -/
def toSizeType (z : Int) : Nat := (z % (sizeMod : Int)).toNat

/-- A store of one `char`: the address must be inside a live object. -/
def write (mem : Mem) (a : Int) (v : Byte) : Option Mem :=
  match mem a with
  | none => none
  | some _ => some (fun x => if x = a then some v else mem x)

/-- The private member `is_whitespace`:
`c == '\r' || c == '\n' || c == '\t' || c == ' '`.  Both sides of each `==` are promoted
to `int`; a promoted `char` equals `13`, `10`, `9` or `32` exactly when its bit pattern
does (`is_whitespace_promoted`). -/
def is_whitespace (c : Byte) : Bool :=
  c == 13 || c == 10 || c == 9 || c == 32

/-- The class `StringSlice`: its two data members. -/
structure StringSlice where
  m_str : Int
  m_size : Nat
deriving DecidableEq

namespace StringSlice

/-- The constructor `StringSlice()`. -/
def default : StringSlice := ⟨nullptr, 0⟩

/-- The constructor `StringSlice(const char* str, size_type size)`. -/
def ofPtrSize (str : Int) (size : Nat) : StringSlice := ⟨str, size⟩

/-- The member `data()`. -/
def data (s : StringSlice) : Int := s.m_str

/-- The member `size()`. -/
def size (s : StringSlice) : Nat := s.m_size

/-- The member `empty()`. -/
def empty (s : StringSlice) : Bool := s.m_size == 0

/-- The member `operator[]`: `m_str[i]`, no range check. -/
def index (mem : Mem) (s : StringSlice) (i : Nat) : Option Byte :=
  mem (s.m_str + (i : Int))

/-- The member `at` (`at` is a reserved word here, hence the name):
`if (i < m_size) return (int)m_str[i]; return -1;`. -/
def at_ (signedChar : Bool) (mem : Mem) (s : StringSlice) (i : Nat) : Option Int :=
  if i < s.m_size then
    (mem (s.m_str + (i : Int))).map (charToInt signedChar)
  else
    some (-1)

/-- The member `substr`:
`if (pos < m_size) { real_len = m_size - pos; real_len = real_len < len ? real_len : len;
return StringSlice(m_str + pos, real_len); } return StringSlice();`.
The default argument `len = npos` is passed explicitly. -/
def substr (s : StringSlice) (pos : Nat) (len : Nat) : StringSlice :=
  if pos < s.m_size then
    let real_len := toSizeType ((s.m_size : Int) - (pos : Int))
    let real_len := if real_len < len then real_len else len
    ofPtrSize (s.m_str + (pos : Int)) real_len
  else
    default

/-- The loop of `compare` with the code after it, entered with loop variable `i`:
`for (; i < m_size && i < other.m_size; ++i) { int diff = m_str[i] - other.m_str[i];
if (diff < 0) return -1; if (diff > 0) return 1; }
if (m_size < other.m_size) return -1; else if (m_size > other.m_size) return 1; return 0;`. -/
def compareLoop (signedChar : Bool) (mem : Mem) (a other : StringSlice) :
    Nat → Nat → Option Int
  | 0, _ => none
  | fuel + 1, i =>
    if i < a.m_size ∧ i < other.m_size then
      match mem (a.m_str + (i : Int)), mem (other.m_str + (i : Int)) with
      | some x, some y =>
        let diff := charToInt signedChar x - charToInt signedChar y
        if diff < 0 then some (-1)
        else if diff > 0 then some 1
        else compareLoop signedChar mem a other fuel ((i + 1) % sizeMod)
      | _, _ => none
    else if a.m_size < other.m_size then some (-1)
    else if a.m_size > other.m_size then some 1
    else some 0

/-- The member `compare`. -/
def compare (signedChar : Bool) (mem : Mem) (a other : StringSlice) : Option Int :=
  compareLoop signedChar mem a other (a.m_size + 1) 0

/-- The loop of `operator==` with the `return true` after it:
`for (; i < m_size; ++i) { if (m_str[i] != other.m_str[i]) return false; } return true;`. -/
def eqLoop (mem : Mem) (a other : StringSlice) : Nat → Nat → Option Bool
  | 0, _ => none
  | fuel + 1, i =>
    if i < a.m_size then
      match mem (a.m_str + (i : Int)), mem (other.m_str + (i : Int)) with
      | some x, some y =>
        if x ≠ y then some false
        else eqLoop mem a other fuel ((i + 1) % sizeMod)
      | _, _ => none
    else some true

/-- The member `operator==`: `if (other.m_size != m_size) return false;` then the loop. -/
def op_eq (mem : Mem) (a other : StringSlice) : Option Bool :=
  if other.m_size ≠ a.m_size then some false
  else eqLoop mem a other (a.m_size + 1) 0

/-- The member `operator!=`: `return !(*this == other);`. -/
def op_ne (mem : Mem) (a other : StringSlice) : Option Bool :=
  (op_eq mem a other).map (fun r => !r)

/-- The loop of `copy_to`: `for (; i < dst_size && i < m_size; ++i) { dst[i] = m_str[i]; }`.
Returns the final `i` and the storage. -/
def copyLoop (s : StringSlice) (dst : Int) (dst_size : Nat) :
    Nat → Mem → Nat → Option (Nat × Mem)
  | 0, _, _ => none
  | fuel + 1, mem, i =>
    if i < dst_size ∧ i < s.m_size then
      match mem (s.m_str + (i : Int)) with
      | none => none
      | some x =>
        match write mem (dst + (i : Int)) x with
        | none => none
        | some mem1 => copyLoop s dst dst_size fuel mem1 ((i + 1) % sizeMod)
    else some (i, mem)

/-- The member `copy_to(char* dst, size_type dst_size)`:
`if (!dst || dst_size == 0) return 0;` the loop, then
`if (i < dst_size) { dst[i] = 0; } else { i = dst_size - 1; dst[i] = 0; } return i;`.
Returns the count and the storage after the call. -/
def copy_to (mem : Mem) (s : StringSlice) (dst : Int) (dst_size : Nat) : Option (Nat × Mem) :=
  if dst = nullptr ∨ dst_size = 0 then some (0, mem)
  else
    match copyLoop s dst dst_size (dst_size + 1) mem 0 with
    | none => none
    | some (i, mem1) =>
      if i < dst_size then
        (write mem1 (dst + (i : Int)) 0).map (fun m => (i, m))
      else
        let i := toSizeType ((dst_size : Int) - 1)
        (write mem1 (dst + (i : Int)) 0).map (fun m => (i, m))

/-- The loop of `find` with the `return npos` after it:
`for (size_type i = start; i < m_size; ++i) { if (m_str[i] == c) return i; } return npos;`. -/
def findLoop (mem : Mem) (s : StringSlice) (c : Byte) : Nat → Nat → Option Nat
  | 0, _ => none
  | fuel + 1, i =>
    if i < s.m_size then
      match mem (s.m_str + (i : Int)) with
      | none => none
      | some x =>
        if x = c then some i
        else findLoop mem s c fuel ((i + 1) % sizeMod)
    else some npos

/-- The member `find`: `if (start >= m_size) return npos;` then the loop.
The default argument `start = 0` is passed explicitly. -/
def find (mem : Mem) (s : StringSlice) (c : Byte) (start : Nat) : Option Nat :=
  if start ≥ s.m_size then some npos
  else findLoop mem s c (s.m_size + 1) start

/-- The loop of `lstrip`: `while (p < end) { if (!is_whitespace(*p)) break; ++p; }`.
Returns the final `p`. -/
def lstripLoop (mem : Mem) (end_ : Int) : Nat → Int → Option Int
  | 0, _ => none
  | fuel + 1, p =>
    if p < end_ then
      match mem p with
      | none => none
      | some c =>
        if !is_whitespace c then some p
        else lstripLoop mem end_ fuel (p + 1)
    else some p

/-- The member `lstrip`: `p = m_str; end = m_str + m_size;` the loop, then
`size_type new_size = end - p; return StringSlice(p, new_size);`. -/
def lstrip (mem : Mem) (s : StringSlice) : Option StringSlice :=
  let end_ := s.m_str + (s.m_size : Int)
  match lstripLoop mem end_ (s.m_size + 1) s.m_str with
  | none => none
  | some p =>
    let new_size := toSizeType (end_ - p)
    some (ofPtrSize p new_size)

/-- The loop of `rstrip`: `while ((p--) > m_str) { if (!is_whitespace(*p)) break; }`.
The test reads `p` before the decrement; the body and the code after the loop see the
decremented `p`. Returns the final `p`. -/
def rstripLoop (mem : Mem) (m_str : Int) : Nat → Int → Option Int
  | 0, _ => none
  | fuel + 1, p =>
    let cond : Bool := decide (p > m_str)
    let p := p - 1
    if cond then
      match mem p with
      | none => none
      | some c =>
        if !is_whitespace c then some p
        else rstripLoop mem m_str fuel p
    else some p

/-- The member `rstrip`: `p = m_str + m_size;` the loop, then
`++p; size_type new_size = p - m_str; return StringSlice(m_str, new_size);`. -/
def rstrip (mem : Mem) (s : StringSlice) : Option StringSlice :=
  match rstripLoop mem s.m_str (s.m_size + 1) (s.m_str + (s.m_size : Int)) with
  | none => none
  | some p =>
    let p := p + 1
    let new_size := toSizeType (p - s.m_str)
    some (ofPtrSize s.m_str new_size)

/-- The member `strip`: `return rstrip().lstrip();`. -/
def strip (mem : Mem) (s : StringSlice) : Option StringSlice :=
  (rstrip mem s).bind (lstrip mem)

/-- The member `operator<`: `int c = compare(other); return c < 0;`. -/
def op_lt (signedChar : Bool) (mem : Mem) (a other : StringSlice) : Option Bool :=
  (compare signedChar mem a other).map (fun c => decide (c < 0))

/-- The member `operator<=`: `int c = compare(other); return c <= 0;`. -/
def op_le (signedChar : Bool) (mem : Mem) (a other : StringSlice) : Option Bool :=
  (compare signedChar mem a other).map (fun c => decide (c ≤ 0))

/-- The member `operator>`: `int c = compare(other); return c > 0;`. -/
def op_gt (signedChar : Bool) (mem : Mem) (a other : StringSlice) : Option Bool :=
  (compare signedChar mem a other).map (fun c => decide (c > 0))

/-- The member `operator>=`: `int c = compare(other); return c >= 0;`. -/
def op_ge (signedChar : Bool) (mem : Mem) (a other : StringSlice) : Option Bool :=
  (compare signedChar mem a other).map (fun c => decide (c ≥ 0))

/-- The loop of the constructor `StringSlice(const char* str)`:
`while (*p_str != 0) { ++p_str; }`. Returns the final `p_str`. The number of iterations is
not bounded by any field, so the fuel is a parameter. -/
def cstrLoop (mem : Mem) : Nat → Int → Option Int
  | 0, _ => none
  | fuel + 1, p_str =>
    match mem p_str with
    | none => none
    | some c =>
      if c ≠ 0 then cstrLoop mem fuel (p_str + 1)
      else some p_str

/-- The constructor `StringSlice(const char* str)`: `m_str = str`, the loop, then
`m_size = p_str - m_str;`. -/
def ofCStr (fuel : Nat) (mem : Mem) (str : Int) : Option StringSlice :=
  (cstrLoop mem fuel str).map (fun p_str => ⟨str, toSizeType (p_str - str)⟩)

end StringSlice

/-- The function template `to_slice`, for an array at address `str` of declared size
`Size` (`static_assert(Size != 0)`): `return StringSlice(str, Size - 1);`. -/
def to_slice (str : Int) (Size : Nat) : StringSlice :=
  StringSlice.ofPtrSize str (toSizeType ((Size : Int) - 1))

/-- The loop of `get_line` with the `return slice` after it:
`for (i = 0; i < slice.size(); ++i) { if (slice[i] == '\n') return
StringSlice(slice.data(), i + 1); } return slice;`. -/
def get_lineLoop (mem : Mem) (slice : StringSlice) : Nat → Nat → Option StringSlice
  | 0, _ => none
  | fuel + 1, i =>
    if i < slice.size then
      match slice.index mem i with
      | none => none
      | some c =>
        if c = 10 then some (StringSlice.ofPtrSize slice.data ((i + 1) % sizeMod))
        else get_lineLoop mem slice fuel ((i + 1) % sizeMod)
    else some slice

/-- The function `get_line`. -/
def get_line (mem : Mem) (slice : StringSlice) : Option StringSlice :=
  get_lineLoop mem slice (slice.size + 1) 0


/-- The caller's contract on a view: its size is a `size_type` value and each of its
`m_size` bytes is readable. -/
def Readable (mem : Mem) (s : StringSlice) : Prop :=
  s.m_size < sizeMod ∧ ∀ i : Nat, i < s.m_size → (mem (s.m_str + (i : Int))).isSome = true

instance (mem : Mem) (s : StringSlice) : Decidable (Readable mem s) := by
  unfold Readable; infer_instance

/-- The caller's contract on a destination buffer of capacity `n`: each of its `n` bytes
is inside a live object. -/
def Writable (mem : Mem) (dst : Int) (n : Nat) : Prop :=
  ∀ j : Nat, j < n → (mem (dst + (j : Int))).isSome = true

instance (mem : Mem) (dst : Int) (n : Nat) : Decidable (Writable mem dst n) := by
  unfold Writable; infer_instance

/-- No byte of the view `s` is a byte of the destination buffer `dst[0 .. n)`. -/
def NoOverlap (s : StringSlice) (dst : Int) (n : Nat) : Prop :=
  ∀ a : Nat, a < s.m_size → ∀ b : Nat, b < n → s.m_str + (a : Int) ≠ dst + (b : Int)

instance (s : StringSlice) (dst : Int) (n : Nat) : Decidable (NoOverlap s dst n) := by
  unfold NoOverlap; infer_instance

/-- Storage holding the bytes `bs` at the addresses `base, base + 1, ...` and nothing
else. -/
def memOfList (base : Int) (bs : List Byte) : Mem :=
  fun a => if base ≤ a then bs.get? (a - base).toNat else none

/-- Storage in which no address is mapped. -/
def noMem : Mem := fun _ => none

/-- The order the claim on `compare` describes, stated on promoted `char` values: `r` is
one of `-1, 0, 1`; at the first index where the two views differ `r` is `-1` when the
`char` of `a` is the smaller and `1` when it is the larger; when the common prefix is
identical `r` orders the sizes. -/
def CompareSpec (signedChar : Bool) (mem : Mem) (a b : StringSlice) (r : Int) : Prop :=
  (r = -1 ∨ r = 0 ∨ r = 1) ∧
  (∀ (i : Nat) (x y : Byte), i < a.size → i < b.size →
      (∀ j : Nat, j < i → a.index mem j = b.index mem j) →
      a.index mem i = some x → b.index mem i = some y → x ≠ y →
      (charToInt signedChar x < charToInt signedChar y → r = -1) ∧
      (charToInt signedChar y < charToInt signedChar x → r = 1)) ∧
  ((∀ j : Nat, j < a.size → j < b.size → a.index mem j = b.index mem j) →
      (a.size < b.size → r = -1) ∧ (b.size < a.size → r = 1) ∧ (a.size = b.size → r = 0))

/-- Two one-byte views: the byte `0x80` at address `100`, the byte `0x01` at `101`. -/
def memHighLow : Mem := memOfList 100 [0x80, 0x01]

/-- The bytes of the test's `unicode` array: `0xc3, 0x9c, 0`, at address `100`. -/
def memUnicode : Mem := memOfList 100 [0xC3, 0x9C, 0]

/-- The view `"Bob"` at address `100` and a four-byte destination at `104`. -/
def memBob : Mem := memOfList 100 [66, 111, 98, 0, 7, 7, 7, 7]

/-- The test string `"\r\nTest\t "` with its terminator, at address `100`. -/
def memStrip : Mem := memOfList 100 [13, 10, 84, 101, 115, 116, 9, 32, 0]

/-- The test string `"Test Two"` with its terminator, at address `100`. -/
def memTestTwo : Mem := memOfList 100 [84, 101, 115, 116, 32, 84, 119, 111, 0]
/-- What a caller observes of a `copy_to` call: the returned count and the bytes held
afterwards at the listed addresses. -/
def obs (r : Option (Nat × Mem)) (addrs : List Int) : Option (Nat × List (Option Byte)) :=
  r.map (fun p => (p.1, addrs.map p.2))

/-- A ten-byte array at address `100` holding `"hello"`, its terminator and four filler
bytes, as after `char buf[10] = "hello"` with the tail overwritten by `7`. -/
def memHello : Mem := memOfList 100 [104, 101, 108, 108, 111, 0, 7, 7, 7, 7]

/-- The bytes a view covers, in the order of their indices. -/
def StringSlice.bytes (mem : Mem) (s : StringSlice) : List (Option Byte) :=
  (List.range s.m_size).map (s.index mem)

/-- One round of the caller's iteration over lines, as written in the test
`Multiple lines` (`line = get_line(buffer); buffer = buffer.substr(line.size());`).
Returns the line and the new `rest`. -/
def lineStep (mem : Mem) (rest : StringSlice) : Option (StringSlice × StringSlice) :=
  (get_line mem rest).map (fun line => (line, rest.substr line.size npos))

/-- The caller's iteration over lines, repeated while `rest` is not empty; returns the
lines in the order they were produced. -/
def lines (mem : Mem) : Nat → StringSlice → Option (List StringSlice)
  | 0, _ => none
  | fuel + 1, rest =>
    if rest.empty = true then some []
    else
      match lineStep mem rest with
      | none => none
      | some (line, rest1) => (lines mem fuel rest1).map (fun ls => line :: ls)

/-- The test string `"test\r\nstuff\r\nyep\r\n"` with its terminator, at address `100`. -/
def memLines : Mem :=
  memOfList 100 [116, 101, 115, 116, 13, 10, 115, 116, 117, 102, 102, 13, 10,
    121, 101, 112, 13, 10, 0]

/-- The address `str` is the start of a null-terminated byte sequence whose first zero byte
is at index `n`: the `n` bytes before it are readable and non-zero. -/
def CStrAt (mem : Mem) (str : Int) (n : Nat) : Prop :=
  (∀ j : Nat, j < n → ∃ b : Byte, mem (str + (j : Int)) = some b ∧ b ≠ 0) ∧
    mem (str + (n : Int)) = some 0

/-- A null-terminated sequence of `2 ^ 32` bytes of value `1` followed by the terminator,
at address `100`. -/
def memLong : Mem :=
  fun a =>
    if 100 ≤ a ∧ a < 100 + 4294967296 then some 1
    else if a = 100 + 4294967296 then some 0
    else none

/-- A four-byte array at address `100` with a zero byte before its last index:
`'A', 0, 'B', 0`. -/
def memEmbedded : Mem := memOfList 100 [65, 0, 66, 0]

/-- The view `t` lies inside the view `s`: it covers a byte range `[o1, o1 + n1)` with
`o <= o1` and `o1 + n1 <= o + n`, where `s` covers `[o, o + n)`. -/
def Inside (s t : StringSlice) : Prop :=
  s.m_str ≤ t.m_str ∧ t.m_str + (t.m_size : Int) ≤ s.m_str + (s.m_size : Int)

instance (s t : StringSlice) : Decidable (Inside s t) := by
  unfold Inside; infer_instance

/-- A one-character string holding the byte `0xff`, with its terminator, at address
`100`, as after `const char d[] = { (char)0xff, 0 }`. -/
def memFF : Mem := memOfList 100 [0xFF, 0]

/-- The promoted `char` values held at the `n` addresses from `p` on (the value of the
byte `0` where the address is unreadable). -/
def charsFrom (signedChar : Bool) (mem : Mem) : Nat → Int → List Int
  | 0, _ => []
  | n + 1, p => charToInt signedChar ((mem p).getD 0) :: charsFrom signedChar mem n (p + 1)

/-- The lexicographic comparison of two sequences of integers with the results `-1`, `0`,
`1`; a proper initial segment sorts first. -/
def lexCmp : List Int → List Int → Int
  | [], [] => 0
  | [], _ :: _ => -1
  | _ :: _, [] => 1
  | x :: xs, y :: ys => if x < y then -1 else if y < x then 1 else lexCmp xs ys

/-! ## Arithmetic of the model -/

theorem toSizeType_of_lt (z : Int) (h0 : 0 ≤ z) (h1 : z < (sizeMod : Int)) :
    toSizeType z = z.toNat := by
  unfold toSizeType
  rw [Int.emod_eq_of_lt h0 h1]

theorem toSizeType_sub (a b : Nat) (hb : b ≤ a) (ha : a < sizeMod) :
    toSizeType ((a : Int) - (b : Int)) = a - b := by
  rw [toSizeType_of_lt _ (by omega) (by omega)]
  omega

theorem succ_mod_sizeMod (i n : Nat) (h : i < n) (hn : n < sizeMod) :
    (i + 1) % sizeMod = i + 1 :=
  Nat.mod_eq_of_lt (by omega)

theorem charToInt_inj (signedChar : Bool) (x y : Byte)
    (h : charToInt signedChar x = charToInt signedChar y) : x = y := by
  have hx := x.isLt
  have hy := y.isLt
  apply Fin.ext
  unfold charToInt at h
  split_ifs at h <;> omega

theorem charToInt_unsigned (b : Byte) : charToInt false b = (b.val : Int) := by
  simp [charToInt]

theorem charToInt_range (signedChar : Bool) (b : Byte) :
    -128 ≤ charToInt signedChar b ∧ charToInt signedChar b ≤ 255 ∧
      charToInt signedChar b % 256 = (b.val : Int) := by
  have hb := b.isLt
  unfold charToInt
  split_ifs <;> omega

/-- The comparisons of `is_whitespace` are made on promoted values; the outcome is the one
computed on the bit pattern, whatever the signedness of `char`. -/
theorem is_whitespace_promoted (signedChar : Bool) (c : Byte) :
    is_whitespace c = (decide (charToInt signedChar c = 13) || decide (charToInt signedChar c = 10)
      || decide (charToInt signedChar c = 9) || decide (charToInt signedChar c = 32)) := by
  have hc := c.isLt
  have e : ∀ n : Nat, n < 128 → ((c == (Fin.ofNat n : Byte)) = decide (charToInt signedChar c = (n : Int))) := by
    intro n hn
    rw [Bool.eq_iff_iff]
    simp only [beq_iff_eq, decide_eq_true_eq]
    constructor
    · intro h; subst h; simp [charToInt, Fin.ofNat]; omega
    · intro h
      apply Fin.ext
      simp [charToInt, Fin.ofNat] at h ⊢
      split_ifs at h <;> omega
  unfold is_whitespace
  rw [show (13 : Byte) = Fin.ofNat 13 from rfl, show (10 : Byte) = Fin.ofNat 10 from rfl,
    show (9 : Byte) = Fin.ofNat 9 from rfl, show (32 : Byte) = Fin.ofNat 32 from rfl,
    e 13 (by omega), e 10 (by omega), e 9 (by omega), e 32 (by omega)]
  rfl

/-! ## substr -/

/-- C1. For a view `s` (its size a `size_type` value) and any `pos`, `len`: when
`pos < s.size()` the result of `substr(pos, len)` has size `min(len, s.size() - pos)` and
its byte at index `j` is the byte of `s` at index `pos + j`; when `pos >= s.size()` the
result is the empty (default) view; `substr(pos)` has size at most `s.size() - pos` for
`pos <= s.size()`; a `len` larger than what remains is truncated to what remains. -/
theorem substr_spec (mem : Mem) (s : StringSlice) (pos len : Nat) (hs : s.size < sizeMod) :
    (pos < s.size →
      (s.substr pos len).size = min len (s.size - pos) ∧
      ∀ j : Nat, j < (s.substr pos len).size →
        (s.substr pos len).index mem j = s.index mem (pos + j)) ∧
    (s.size ≤ pos →
      s.substr pos len = StringSlice.default ∧ (s.substr pos len).empty = true) ∧
    (pos ≤ s.size → (s.substr pos npos).size ≤ s.size - pos) ∧
    (pos < s.size → s.size - pos < len → (s.substr pos len).size = s.size - pos) := by
  unfold StringSlice.size at *
  have key : ∀ l : Nat, pos < s.m_size →
      s.substr pos l = ⟨s.m_str + (pos : Int), min l (s.m_size - pos)⟩ := by
    intro l hp
    unfold StringSlice.substr StringSlice.ofPtrSize
    rw [if_pos hp, toSizeType_sub _ _ (le_of_lt hp) hs]
    simp only [StringSlice.mk.injEq, true_and]
    split_ifs <;> omega
  refine ⟨?_, ?_, ?_, ?_⟩
  · intro hp
    rw [key len hp]
    refine ⟨rfl, ?_⟩
    intro j _
    simp only [StringSlice.index]
    congr 1
    push_cast
    ring
  · intro hp
    have : s.substr pos len = StringSlice.default := by
      unfold StringSlice.substr
      rw [if_neg (by omega)]
    rw [this]
    exact ⟨rfl, rfl⟩
  · intro hp
    rcases Nat.lt_or_ge pos s.m_size with h | h
    · rw [key npos h]
      simp only [StringSlice.size]
      omega
    · unfold StringSlice.substr
      rw [if_neg (by omega)]
      simp [StringSlice.default]
  · intro hp hl
    rw [key len hp]
    simp only [StringSlice.size]
    omega

theorem substr_spec_witness :
    (StringSlice.mk 100 11).size < sizeMod ∧
    ((StringSlice.mk 100 11).substr 5 200).size = min 200 ((StringSlice.mk 100 11).size - 5) ∧
    ∀ j : Nat, j < ((StringSlice.mk 100 11).substr 5 200).size →
      ((StringSlice.mk 100 11).substr 5 200).index memTestTwo j
        = (StringSlice.mk 100 11).index memTestTwo (5 + j) :=
  ⟨by decide, (substr_spec memTestTwo ⟨100, 11⟩ 5 200 (by decide)).1 (by decide)⟩

/-! ## compare -/

theorem compareLoop_spec (signedChar : Bool) (mem : Mem) (a b : StringSlice)
    (ha : Readable mem a) (hb : Readable mem b) :
    ∀ (fuel i : Nat), i ≤ a.m_size → i ≤ b.m_size → a.m_size - i < fuel →
      (∀ j : Nat, j < i → a.index mem j = b.index mem j) →
      ∃ r, a.compareLoop signedChar mem b fuel i = some r ∧
        CompareSpec signedChar mem a b r := by
  intro fuel
  induction fuel with
  | zero => intro i _ _ h; omega
  | succ n ih =>
    intro i hia hib hf hpre
    rw [StringSlice.compareLoop]
    by_cases hc : i < a.m_size ∧ i < b.m_size
    · rw [if_pos hc]
      obtain ⟨x, hx⟩ := Option.isSome_iff_exists.mp (ha.2 i hc.1)
      obtain ⟨y, hy⟩ := Option.isSome_iff_exists.mp (hb.2 i hc.2)
      -- any first differing index is `i` as soon as the bytes at `i` differ
      have first : x ≠ y → ∀ (k : Nat) (x1 y1 : Byte),
          (∀ j : Nat, j < k → a.index mem j = b.index mem j) →
          a.index mem k = some x1 → b.index mem k = some y1 → x1 ≠ y1 →
          x1 = x ∧ y1 = y := by
        intro hne k x1 y1 hk hx1 hy1 hne1
        have hki : k = i := by
          rcases Nat.lt_trichotomy k i with h | h | h
          · exfalso
            have := hpre k h
            rw [hx1, hy1] at this
            exact hne1 (Option.some.inj this)
          · exact h
          · exfalso
            have := hk i h
            simp only [StringSlice.index] at this
            rw [hx, hy] at this
            exact hne (Option.some.inj this)
        subst hki
        simp only [StringSlice.index] at hx1 hy1
        rw [hx] at hx1
        rw [hy] at hy1
        exact ⟨(Option.some.inj hx1).symm, (Option.some.inj hy1).symm⟩
      have noTie : x ≠ y →
          ¬ (∀ j : Nat, j < a.size → j < b.size → a.index mem j = b.index mem j) := by
        intro hne hall
        have := hall i hc.1 hc.2
        simp only [StringSlice.index] at this
        rw [hx, hy] at this
        exact hne (Option.some.inj this)
      simp only [hx, hy]
      by_cases h1 : charToInt signedChar x - charToInt signedChar y < 0
      · rw [if_pos h1]
        have hne : x ≠ y := by
          intro h; subst h; omega
        refine ⟨-1, rfl, Or.inl rfl, ?_, ?_⟩
        · intro k x1 y1 _ _ hk hx1 hy1 hne1
          obtain ⟨e1, e2⟩ := first hne k x1 y1 hk hx1 hy1 hne1
          subst e1 e2
          exact ⟨fun _ => rfl, fun h => by omega⟩
        · intro hall
          exact absurd hall (noTie hne)
      · rw [if_neg h1]
        by_cases h2 : charToInt signedChar x - charToInt signedChar y > 0
        · rw [if_pos h2]
          have hne : x ≠ y := by
            intro h; subst h; omega
          refine ⟨1, rfl, Or.inr (Or.inr rfl), ?_, ?_⟩
          · intro k x1 y1 _ _ hk hx1 hy1 hne1
            obtain ⟨e1, e2⟩ := first hne k x1 y1 hk hx1 hy1 hne1
            subst e1 e2
            exact ⟨fun h => by omega, fun _ => rfl⟩
          · intro hall
            exact absurd hall (noTie hne)
        · rw [if_neg h2]
          have hxy : x = y := charToInt_inj signedChar x y (by omega)
          rw [succ_mod_sizeMod i a.m_size hc.1 ha.1]
          apply ih (i + 1) (by omega) (by omega) (by omega)
          intro j hj
          rcases Nat.lt_or_ge j i with h | h
          · exact hpre j h
          · have : j = i := by omega
            subst this
            simp only [StringSlice.index]
            rw [hx, hy, hxy]
    · rw [if_neg hc]
      have hmin : i = a.m_size ∨ i = b.m_size := by omega
      have spec2 : ∀ (k : Nat) (x y : Byte), k < a.size → k < b.size →
          (∀ j : Nat, j < k → a.index mem j = b.index mem j) →
          a.index mem k = some x → b.index mem k = some y → x ≠ y → False := by
        intro k x y hka hkb _ hx hy hne
        have hk : k < i := by
          simp only [StringSlice.size] at hka hkb
          omega
        have := hpre k hk
        rw [hx, hy] at this
        exact hne (Option.some.inj this)
      by_cases h1 : a.m_size < b.m_size
      · rw [if_pos h1]
        refine ⟨-1, rfl, Or.inl rfl, ?_, ?_⟩
        · intro k x y hka hkb hk hx hy hne
          exact (spec2 k x y hka hkb hk hx hy hne).elim
        · intro _
          simp only [StringSlice.size]
          exact ⟨fun _ => trivial, fun h => by omega, fun h => by omega⟩
      · rw [if_neg h1]
        by_cases h2 : a.m_size > b.m_size
        · rw [if_pos h2]
          refine ⟨1, rfl, Or.inr (Or.inr rfl), ?_, ?_⟩
          · intro k x y hka hkb hk hx hy hne
            exact (spec2 k x y hka hkb hk hx hy hne).elim
          · intro _
            simp only [StringSlice.size]
            exact ⟨fun h => by omega, fun _ => trivial, fun h => by omega⟩
        · rw [if_neg h2]
          refine ⟨0, rfl, Or.inr (Or.inl rfl), ?_, ?_⟩
          · intro k x y hka hkb hk hx hy hne
            exact (spec2 k x y hka hkb hk hx hy hne).elim
          · intro _
            simp only [StringSlice.size]
            exact ⟨fun h => by omega, fun h => by omega, fun _ => trivial⟩

/-- C2 (the claim as stated fails). With a signed `char`, `compare` puts the one-byte view
holding `0x80` before the one holding `0x01`: it returns `-1` although `0x80` is the larger
byte value, where the claim requires `1`. -/
theorem compare_byte_order_counterexample :
    Readable memHighLow ⟨100, 1⟩ ∧ Readable memHighLow ⟨101, 1⟩ ∧
    StringSlice.index memHighLow ⟨100, 1⟩ 0 = some 0x80 ∧
    StringSlice.index memHighLow ⟨101, 1⟩ 0 = some 0x01 ∧
    (0x01 : Byte) < 0x80 ∧
    StringSlice.compare true memHighLow ⟨100, 1⟩ ⟨101, 1⟩ = some (-1) ∧
    StringSlice.compare true memHighLow ⟨100, 1⟩ ⟨101, 1⟩ ≠ some 1 := by
  decide

/-- C2 (amended). For readable views `a` and `b`, `a.compare(b)` returns one of `-1, 0, 1`
and is the lexicographic order of the two sequences of `char` values: at the first index
where the bytes differ the result is `-1` when the `char` of `a`, promoted to `int`, is the
smaller and `1` when it is the larger; this is the order of the byte values when `char` is
unsigned or when the two bytes lie on the same side of `0x80`. When the common prefix is
identical the result is `-1`, `1` or `0` as `a.size()` is less than, greater than or equal
to `b.size()`. -/
theorem compare_spec (signedChar : Bool) (mem : Mem) (a b : StringSlice)
    (ha : Readable mem a) (hb : Readable mem b) :
    ∃ r : Int, a.compare signedChar mem b = some r ∧
      (r = -1 ∨ r = 0 ∨ r = 1) ∧
      (∀ (i : Nat) (x y : Byte), i < a.size → i < b.size →
        (∀ j : Nat, j < i → a.index mem j = b.index mem j) →
        a.index mem i = some x → b.index mem i = some y → x ≠ y →
        (charToInt signedChar x < charToInt signedChar y → r = -1) ∧
        (charToInt signedChar y < charToInt signedChar x → r = 1) ∧
        ((signedChar = false ∨ (x.val < 128 ↔ y.val < 128)) →
          (x < y → r = -1) ∧ (y < x → r = 1))) ∧
      ((∀ j : Nat, j < a.size → j < b.size → a.index mem j = b.index mem j) →
        (a.size < b.size → r = -1) ∧ (b.size < a.size → r = 1) ∧
        (a.size = b.size → r = 0)) := by
  obtain ⟨r, hr, h1, h2, h3⟩ :=
    compareLoop_spec signedChar mem a b ha hb (a.m_size + 1) 0 (by omega) (by omega) (by omega)
      (fun j hj => absurd hj (Nat.not_lt_zero j))
  refine ⟨r, hr, h1, ?_, h3⟩
  intro i x y hia hib hpre hx hy hne
  obtain ⟨l, g⟩ := h2 i x y hia hib hpre hx hy hne
  refine ⟨l, g, ?_⟩
  intro hs
  have hxl := x.isLt
  have hyl := y.isLt
  have ex : (x < y ↔ x.val < y.val) := Fin.lt_def
  have ey : (y < x ↔ y.val < x.val) := Fin.lt_def
  constructor
  · intro hlt
    apply l
    rw [ex] at hlt
    rcases hs with hs | hs
    · subst hs
      rw [charToInt_unsigned, charToInt_unsigned]
      omega
    · cases signedChar
      · rw [charToInt_unsigned, charToInt_unsigned]
        omega
      · simp only [charToInt, true_and]
        split_ifs <;> omega
  · intro hlt
    apply g
    rw [ey] at hlt
    rcases hs with hs | hs
    · subst hs
      rw [charToInt_unsigned, charToInt_unsigned]
      omega
    · cases signedChar
      · rw [charToInt_unsigned, charToInt_unsigned]
        omega
      · simp only [charToInt, true_and]
        split_ifs <;> omega

theorem compare_spec_witness :
    Readable memTestTwo ⟨100, 4⟩ ∧ Readable memTestTwo ⟨105, 3⟩ ∧
    ∃ r : Int, StringSlice.compare true memTestTwo ⟨100, 4⟩ ⟨105, 3⟩ = some r ∧
      (r = -1 ∨ r = 0 ∨ r = 1) :=
  ⟨by decide, by decide,
    (compare_spec true memTestTwo ⟨100, 4⟩ ⟨105, 3⟩ (by decide) (by decide)).imp
      (fun _ h => ⟨h.1, h.2.1⟩)⟩

/-! ## operator== and operator!= -/

theorem compareSpec_zero_iff (signedChar : Bool) (mem : Mem) (a b : StringSlice)
    (ha : Readable mem a) (hb : Readable mem b) (r : Int)
    (h : CompareSpec signedChar mem a b r) :
    r = 0 ↔ (a.size = b.size ∧ ∀ j : Nat, j < a.size → a.index mem j = b.index mem j) := by
  obtain ⟨_, h2, h3⟩ := h
  constructor
  · intro hr
    have hall : ∀ j : Nat, j < a.size → j < b.size → a.index mem j = b.index mem j := by
      intro j
      induction j using Nat.strong_induction_on with
      | _ j ih =>
        intro hja hjb
        obtain ⟨x, hx⟩ := Option.isSome_iff_exists.mp (ha.2 j hja)
        obtain ⟨y, hy⟩ := Option.isSome_iff_exists.mp (hb.2 j hjb)
        by_contra hne
        have hxy : x ≠ y := by
          intro e
          apply hne
          simp only [StringSlice.index]
          rw [hx, hy, e]
        obtain ⟨l, g⟩ := h2 j x y hja hjb
          (fun k hk => ih k hk (by omega) (by omega)) hx hy hxy
        have hc : charToInt signedChar x ≠ charToInt signedChar y :=
          fun e => hxy (charToInt_inj _ _ _ e)
        rcases lt_or_gt_of_ne hc with c | c
        · have := l c
          omega
        · have := g c
          omega
    obtain ⟨t1, t2, _⟩ := h3 hall
    have hsz : a.size = b.size := by
      rcases Nat.lt_trichotomy a.size b.size with c | c | c
      · have := t1 c
        omega
      · exact c
      · have := t2 c
        omega
    exact ⟨hsz, fun j hj => hall j hj (by omega)⟩
  · rintro ⟨hsz, hall⟩
    exact (h3 (fun j hj _ => hall j hj)).2.2 hsz

theorem eqLoop_spec (mem : Mem) (a b : StringSlice)
    (ha : Readable mem a) (hb : Readable mem b) (hsz : b.m_size = a.m_size) :
    ∀ (fuel i : Nat), i ≤ a.m_size → a.m_size - i < fuel →
      (∀ j : Nat, j < i → a.index mem j = b.index mem j) →
      ∃ e : Bool, a.eqLoop mem b fuel i = some e ∧
        (e = true ↔ ∀ j : Nat, j < a.m_size → a.index mem j = b.index mem j) := by
  intro fuel
  induction fuel with
  | zero => intro i _ h; omega
  | succ n ih =>
    intro i hia hf hpre
    rw [StringSlice.eqLoop]
    by_cases hc : i < a.m_size
    · rw [if_pos hc]
      obtain ⟨x, hx⟩ := Option.isSome_iff_exists.mp (ha.2 i hc)
      obtain ⟨y, hy⟩ := Option.isSome_iff_exists.mp (hb.2 i (by omega))
      simp only [hx, hy]
      by_cases hxy : x ≠ y
      · rw [if_pos hxy]
        refine ⟨false, rfl, ?_⟩
        constructor
        · intro h; cases h
        · intro hall
          exfalso
          have := hall i hc
          simp only [StringSlice.index] at this
          rw [hx, hy] at this
          exact hxy (Option.some.inj this)
      · rw [if_neg hxy]
        rw [succ_mod_sizeMod i a.m_size hc ha.1]
        apply ih (i + 1) (by omega) (by omega)
        intro j hj
        rcases Nat.lt_or_ge j i with h | h
        · exact hpre j h
        · have : j = i := by omega
          subst this
          simp only [StringSlice.index]
          rw [hx, hy, not_not.mp hxy]
    · rw [if_neg hc]
      refine ⟨true, rfl, ?_⟩
      constructor
      · intro _ j hj
        exact hpre j (by omega)
      · intro _; rfl

/-- C3. For readable views `a` and `b`: `a == b` is true exactly when `a.compare(b)` is `0`,
which holds exactly when the sizes are equal and the bytes at every index below the size
are equal (a condition on sizes and contents only, not on `m_str`); `a != b` is the
negation of `a == b`. -/
theorem op_eq_spec (signedChar : Bool) (mem : Mem) (a b : StringSlice)
    (ha : Readable mem a) (hb : Readable mem b) :
    ∃ (e : Bool) (r : Int), a.op_eq mem b = some e ∧ a.compare signedChar mem b = some r ∧
      (e = true ↔ r = 0) ∧
      (r = 0 ↔ (a.size = b.size ∧ ∀ j : Nat, j < a.size → a.index mem j = b.index mem j)) ∧
      a.op_ne mem b = some (!e) := by
  obtain ⟨r, hr, hspec⟩ :=
    compareLoop_spec signedChar mem a b ha hb (a.m_size + 1) 0 (by omega) (by omega) (by omega)
      (fun j hj => absurd hj (Nat.not_lt_zero j))
  have hz := compareSpec_zero_iff signedChar mem a b ha hb r hspec
  by_cases hsz : b.m_size ≠ a.m_size
  · have he : a.op_eq mem b = some false := by
      unfold StringSlice.op_eq
      rw [if_pos hsz]
    refine ⟨false, r, he, hr, ?_, hz, ?_⟩
    · constructor
      · intro h; cases h
      · intro h0
        exfalso
        exact hsz (hz.mp h0).1.symm
    · unfold StringSlice.op_ne
      rw [he]
      rfl
  · have hsz1 : b.m_size = a.m_size := not_not.mp hsz
    obtain ⟨e, he, hiff⟩ := eqLoop_spec mem a b ha hb hsz1 (a.m_size + 1) 0 (by omega)
      (by omega) (fun j hj => absurd hj (Nat.not_lt_zero j))
    have he1 : a.op_eq mem b = some e := by
      unfold StringSlice.op_eq
      rw [if_neg hsz]
      exact he
    refine ⟨e, r, he1, hr, ?_, hz, ?_⟩
    · rw [hiff, hz]
      constructor
      · intro h
        exact ⟨hsz1.symm, h⟩
      · intro h
        exact h.2
    · unfold StringSlice.op_ne
      rw [he1]
      rfl

theorem op_eq_spec_witness :
    Readable memTestTwo ⟨100, 1⟩ ∧ Readable memTestTwo ⟨105, 1⟩ ∧
    ∃ (e : Bool) (r : Int), StringSlice.op_eq memTestTwo ⟨100, 1⟩ ⟨105, 1⟩ = some e ∧
      StringSlice.compare true memTestTwo ⟨100, 1⟩ ⟨105, 1⟩ = some r ∧ (e = true ↔ r = 0) :=
  ⟨by decide, by decide,
    (op_eq_spec true memTestTwo ⟨100, 1⟩ ⟨105, 1⟩ (by decide) (by decide)).imp
      (fun _ h => h.imp (fun _ g => ⟨g.1, g.2.1, g.2.2.1⟩))⟩

/-! ## at -/

/-- C4 (the claim as stated fails). With a signed `char`, `at(0)` on the view of the bytes
`0xc3, 0x9c` returns `-61`, which is neither the byte value `195` nor in `[0, 255]`. -/
theorem at_signed_counterexample :
    Readable memUnicode ⟨100, 2⟩ ∧ 0 < StringSlice.size ⟨100, 2⟩ ∧
    StringSlice.index memUnicode ⟨100, 2⟩ 0 = some 195 ∧
    StringSlice.at_ true memUnicode ⟨100, 2⟩ 0 = some (-61) ∧
    ¬ ((0 : Int) ≤ -61 ∧ (-61 : Int) ≤ 255) := by
  decide

/-- C4 (amended). For a readable view `s` and `i < s.size()`, `s.at(i)` returns the `char`
stored at index `i` converted to `int`: the byte value, in `[0, 255]`, when `char` is
unsigned or the byte is below `0x80`; the byte value minus `256`, in `[-128, -1]`, when
`char` is signed and the byte is `0x80` or above. In every case the result is in
`[-128, 255]` and congruent to the byte value modulo `256`. -/
theorem at_in_range (signedChar : Bool) (mem : Mem) (s : StringSlice) (i : Nat)
    (hs : Readable mem s) (hi : i < s.size) :
    ∃ (b : Byte) (r : Int), s.index mem i = some b ∧ s.at_ signedChar mem i = some r ∧
      (signedChar = false ∨ b.val < 128 → r = (b.val : Int) ∧ 0 ≤ r ∧ r ≤ 255) ∧
      (signedChar = true → 128 ≤ b.val → r = (b.val : Int) - 256 ∧ -128 ≤ r ∧ r ≤ -1) ∧
      -128 ≤ r ∧ r ≤ 255 ∧ r % 256 = (b.val : Int) := by
  obtain ⟨b, hb⟩ := Option.isSome_iff_exists.mp (hs.2 i hi)
  have hbl := b.isLt
  refine ⟨b, charToInt signedChar b, hb, ?_, ?_, ?_, ?_⟩
  · unfold StringSlice.at_
    rw [if_pos (show i < s.m_size from hi), hb]
    rfl
  · intro h
    cases signedChar
    · rw [charToInt_unsigned]
      omega
    · simp only [charToInt, true_and]
      have hlt : b.val < 128 := by
        rcases h with h | h
        · cases h
        · exact h
      rw [if_neg (by omega)]
      omega
  · intro h1 h2
    subst h1
    simp only [charToInt, true_and]
    rw [if_pos h2]
    omega
  · exact charToInt_range signedChar b

theorem at_in_range_witness :
    Readable memUnicode ⟨100, 2⟩ ∧ 1 < StringSlice.size ⟨100, 2⟩ ∧
    ∃ (b : Byte) (r : Int), StringSlice.index memUnicode ⟨100, 2⟩ 1 = some b ∧
      StringSlice.at_ true memUnicode ⟨100, 2⟩ 1 = some r ∧ r % 256 = (b.val : Int) :=
  ⟨by decide, by decide,
    (at_in_range true memUnicode ⟨100, 2⟩ 1 (by decide) (by decide)).imp
      (fun _ h => h.imp (fun _ g => ⟨g.1, g.2.1, g.2.2.2.2.2.2⟩))⟩

/-- C5. For every view `s`, every storage and every index `i >= s.size()`, `s.at(i)` returns
`-1`; it does so in the storage where no address is readable, so no byte is read. The
default-constructed view returns `-1` at every index. -/
theorem at_out_of_range (signedChar : Bool) (mem : Mem) (s : StringSlice) (i : Nat)
    (hi : s.size ≤ i) :
    s.at_ signedChar mem i = some (-1) ∧ s.at_ signedChar noMem i = some (-1) ∧
    StringSlice.default.at_ signedChar mem i = some (-1) ∧
    StringSlice.default.at_ signedChar noMem i = some (-1) := by
  have h : ∀ (m : Mem) (t : StringSlice), t.m_size ≤ i → t.at_ signedChar m i = some (-1) := by
    intro m t ht
    unfold StringSlice.at_
    rw [if_neg (by omega)]
  exact ⟨h mem s hi, h noMem s hi, h mem _ (Nat.zero_le i), h noMem _ (Nat.zero_le i)⟩

theorem at_out_of_range_witness :
    StringSlice.size ⟨100, 4⟩ ≤ 4 ∧
    StringSlice.at_ true memTestTwo ⟨100, 4⟩ 4 = some (-1) ∧
    StringSlice.at_ true noMem ⟨100, 4⟩ 4 = some (-1) ∧
    StringSlice.default.at_ true memTestTwo 4 = some (-1) ∧
    StringSlice.default.at_ true noMem 4 = some (-1) :=
  ⟨by decide, at_out_of_range true memTestTwo ⟨100, 4⟩ 4 (by decide)⟩

/-! ## copy_to -/

theorem write_eq (mem : Mem) (a : Int) (v : Byte) (m1 : Mem) (h : write mem a v = some m1) :
    (mem a).isSome = true ∧ m1 a = some v ∧ (∀ x : Int, x ≠ a → m1 x = mem x) ∧
      (∀ x : Int, (m1 x).isSome = (mem x).isSome) := by
  unfold write at h
  cases hm : mem a with
  | none => rw [hm] at h; cases h
  | some w =>
    rw [hm] at h
    have e : m1 = fun x => if x = a then some v else mem x := (Option.some.inj h).symm
    subst e
    refine ⟨rfl, by simp, ?_, ?_⟩
    · intro x hx
      simp [hx]
    · intro x
      by_cases hx : x = a
      · subst hx; simp [hm]
      · simp [hx]

theorem write_some (mem : Mem) (a : Int) (v : Byte) (h : (mem a).isSome = true) :
    ∃ m1 : Mem, write mem a v = some m1 := by
  unfold write
  obtain ⟨w, hw⟩ := Option.isSome_iff_exists.mp h
  rw [hw]
  exact ⟨_, rfl⟩

theorem copyLoop_post (s : StringSlice) (dst : Int) (dst_size : Nat) (hn : dst_size < sizeMod) :
    ∀ (fuel : Nat) (mem : Mem) (i k : Nat) (m2 : Mem),
      i ≤ dst_size → i ≤ s.m_size →
      s.copyLoop dst dst_size fuel mem i = some (k, m2) →
      k = min dst_size s.m_size ∧
      (∀ x : Int, x < dst + (i : Int) ∨ dst + (k : Int) ≤ x → m2 x = mem x) ∧
      (∀ x : Int, (m2 x).isSome = (mem x).isSome) ∧
      ((∀ a b : Nat, a < s.m_size → b < dst_size → s.m_str + (a : Int) ≠ dst + (b : Int)) →
        ∀ j : Nat, i ≤ j → j < k → m2 (dst + (j : Int)) = mem (s.m_str + (j : Int))) := by
  intro fuel
  induction fuel with
  | zero =>
    intro mem i k m2 _ _ h
    simp [StringSlice.copyLoop] at h
  | succ n ih =>
    intro mem i k m2 hid his h
    rw [StringSlice.copyLoop] at h
    by_cases hc : i < dst_size ∧ i < s.m_size
    · rw [if_pos hc] at h
      cases hx : mem (s.m_str + (i : Int)) with
      | none => simp [hx] at h
      | some x =>
        simp only [hx] at h
        cases hw : write mem (dst + (i : Int)) x with
        | none => simp [hw] at h
        | some m1 =>
          simp only [hw] at h
          rw [succ_mod_sizeMod i dst_size hc.1 hn] at h
          obtain ⟨hk, hframe, hsome, hcont⟩ := ih m1 (i + 1) k m2 (by omega) (by omega) h
          obtain ⟨_, hat, hne, hdom⟩ := write_eq mem _ x m1 hw
          refine ⟨hk, ?_, ?_, ?_⟩
          · intro y hy
            rw [hframe y (by omega)]
            exact hne y (by omega)
          · intro y
            rw [hsome y, hdom y]
          · intro hdisj j hij hjk
            rcases Nat.eq_or_lt_of_le hij with e | e
            · subst e
              rw [hframe (dst + (i : Int)) (by omega), hat, hx]
            · rw [hcont hdisj j (by omega) hjk]
              exact hne _ (hdisj j i (by omega) hc.1)
    · rw [if_neg hc] at h
      have e := Option.some.inj h
      have e1 : i = k := congrArg Prod.fst e
      have e2 : mem = m2 := congrArg Prod.snd e
      subst e1 e2
      refine ⟨by omega, fun _ _ => rfl, fun _ => rfl, ?_⟩
      intro _ j h1 h2
      omega

theorem copyLoop_total (s : StringSlice) (dst : Int) (dst_size : Nat) (hn : dst_size < sizeMod) :
    ∀ (fuel : Nat) (mem : Mem) (i : Nat),
      min dst_size s.m_size - i < fuel →
      (∀ j : Nat, j < s.m_size → (mem (s.m_str + (j : Int))).isSome = true) →
      (∀ j : Nat, j < dst_size → (mem (dst + (j : Int))).isSome = true) →
      ∃ (k : Nat) (m2 : Mem), s.copyLoop dst dst_size fuel mem i = some (k, m2) := by
  intro fuel
  induction fuel with
  | zero => intro mem i h; omega
  | succ n ih =>
    intro mem i hf hr hw
    rw [StringSlice.copyLoop]
    by_cases hc : i < dst_size ∧ i < s.m_size
    · rw [if_pos hc]
      obtain ⟨x, hx⟩ := Option.isSome_iff_exists.mp (hr i hc.2)
      obtain ⟨m1, hm1⟩ := write_some mem (dst + (i : Int)) x (hw i hc.1)
      simp only [hx, hm1]
      obtain ⟨_, _, _, hdom⟩ := write_eq mem _ x m1 hm1
      apply ih m1 _ (by rw [succ_mod_sizeMod i dst_size hc.1 hn]; omega)
      · intro j hj
        rw [hdom]
        exact hr j hj
      · intro j hj
        rw [hdom]
        exact hw j hj
    · rw [if_neg hc]
      exact ⟨i, mem, rfl⟩

theorem copy_to_post (mem : Mem) (s : StringSlice) (dst : Int) (n : Nat)
    (hn : n < sizeMod) (hd : dst ≠ nullptr) (hn0 : n ≠ 0) (k : Nat) (m3 : Mem)
    (h : s.copy_to mem dst n = some (k, m3)) :
    k = min s.m_size (n - 1) ∧ m3 (dst + (k : Int)) = some 0 ∧
    (∀ x : Int, x < dst ∨ dst + (k : Int) < x → m3 x = mem x) ∧
    (∀ x : Int, (m3 x).isSome = (mem x).isSome) ∧
    (NoOverlap s dst n →
      ∀ j : Nat, j < k → m3 (dst + (j : Int)) = mem (s.m_str + (j : Int))) := by
  unfold StringSlice.copy_to at h
  rw [if_neg (by tauto)] at h
  cases hL : s.copyLoop dst n (n + 1) mem 0 with
  | none => simp [hL] at h
  | some r =>
    obtain ⟨k0, m1⟩ := r
    simp only [hL] at h
    obtain ⟨hk0, hframe, hsome, hcont⟩ :=
      copyLoop_post s dst n hn (n + 1) mem 0 k0 m1 (by omega) (by omega) hL
    -- the terminating store, at index `t`
    have fin : ∀ t : Nat, t ≤ k0 → t = min s.m_size (n - 1) →
        Option.map (fun m => (t, m)) (write m1 (dst + (t : Int)) 0) = some (k, m3) →
        k = min s.m_size (n - 1) ∧ m3 (dst + (k : Int)) = some 0 ∧
        (∀ x : Int, x < dst ∨ dst + (k : Int) < x → m3 x = mem x) ∧
        (∀ x : Int, (m3 x).isSome = (mem x).isSome) ∧
        (NoOverlap s dst n →
          ∀ j : Nat, j < k → m3 (dst + (j : Int)) = mem (s.m_str + (j : Int))) := by
      intro t ht0 ht hw
      cases hw1 : write m1 (dst + (t : Int)) 0 with
      | none => simp [hw1] at hw
      | some m =>
        rw [hw1] at hw
        have e := Option.some.inj hw
        have e1 : t = k := congrArg Prod.fst e
        have e2 : m = m3 := congrArg Prod.snd e
        subst e1 e2
        obtain ⟨_, hat, hne, hdom⟩ := write_eq m1 _ 0 m hw1
        refine ⟨ht, hat, ?_, ?_, ?_⟩
        · intro x hx
          rw [hne x (by omega)]
          apply hframe
          omega
        · intro x
          rw [hdom, hsome]
        · intro hdisj j hj
          rw [hne _ (by omega)]
          exact hcont (fun a b ha hb => hdisj a ha b hb) j (by omega) (by omega)
    by_cases hc : k0 < n
    · rw [if_pos hc] at h
      exact fin k0 (le_refl _) (by omega) h
    · rw [if_neg hc] at h
      have ht : toSizeType ((n : Int) - 1) = n - 1 := by
        have := toSizeType_sub n 1 (by omega) hn
        simpa using this
      simp only [ht] at h
      exact fin (n - 1) (by omega) (by omega) h

theorem copy_to_total (mem : Mem) (s : StringSlice) (dst : Int) (n : Nat)
    (hn : n < sizeMod) (hs : Readable mem s) (hw : Writable mem dst n) :
    ∃ (k : Nat) (m3 : Mem), s.copy_to mem dst n = some (k, m3) := by
  unfold StringSlice.copy_to
  by_cases hd : dst = nullptr ∨ n = 0
  · rw [if_pos hd]
    exact ⟨0, mem, rfl⟩
  · rw [if_neg hd]
    obtain ⟨k0, m1, hL⟩ := copyLoop_total s dst n hn (n + 1) mem 0 (by omega) hs.2 hw
    obtain ⟨hk0, _, hsome, _⟩ :=
      copyLoop_post s dst n hn (n + 1) mem 0 k0 m1 (by omega) (by omega) hL
    simp only [hL]
    have hn0 : n ≠ 0 := fun e => hd (Or.inr e)
    by_cases hc : k0 < n
    · rw [if_pos hc]
      obtain ⟨m, hm⟩ := write_some m1 (dst + (k0 : Int)) 0 (by rw [hsome]; exact hw k0 hc)
      rw [hm]
      exact ⟨k0, m, rfl⟩
    · rw [if_neg hc]
      have ht : toSizeType ((n : Int) - 1) = n - 1 := by
        have := toSizeType_sub n 1 (by omega) hn
        simpa using this
      simp only [ht]
      obtain ⟨m, hm⟩ := write_some m1 (dst + ((n - 1 : Nat) : Int)) 0
        (by rw [hsome]; exact hw (n - 1) (by omega))
      rw [hm]
      exact ⟨n - 1, m, rfl⟩

/-- C6 (the claim as stated fails). The destination may overlap the view. Copying the view
`"hello"` at address `100` to `dst = 102` with capacity `8` returns `5` and leaves `dst[2]`
equal to `'h'`, while the byte of the view at index `2` was `'l'` when the call was made.
Copying the view `"llo"` at address `102` to `dst = 100` returns `3` and leaves
`dst[0] = 'l'` while the byte of the view at index `0` is `'o'` after the call. -/
theorem copy_to_overlap_counterexample :
    (Readable memHello ⟨100, 5⟩ ∧ Writable memHello 102 8 ∧
      StringSlice.index memHello ⟨100, 5⟩ 2 = some 108 ∧
      obs (StringSlice.copy_to memHello ⟨100, 5⟩ 102 8) [102 + 2] = some (5, [some 104])) ∧
    (Readable memHello ⟨102, 3⟩ ∧ Writable memHello 100 8 ∧
      obs (StringSlice.copy_to memHello ⟨102, 3⟩ 100 8) [100 + 0, 102 + 0]
        = some (3, [some 108, some 111])) := by
  decide

/-- C6 (amended). For a readable view `s`, a non-null destination `dst` whose `n >= 1` bytes
are writable and do not overlap the bytes of `s`, `s.copy_to(dst, n)` returns
`k = min(s.size(), n - 1)`; afterwards `dst[j]` is the byte of `s` at index `j` for every
`j < k` (the bytes of `s` are the same before and after the call) and `dst[k] == 0`, with
`k < n`. -/
theorem copy_to_spec (mem : Mem) (s : StringSlice) (dst : Int) (n : Nat)
    (hs : Readable mem s) (hd : dst ≠ nullptr) (hn1 : 1 ≤ n) (hn : n < sizeMod)
    (hw : Writable mem dst n) (hdisj : NoOverlap s dst n) :
    ∃ m3 : Mem, s.copy_to mem dst n = some (min s.size (n - 1), m3) ∧
      (∀ j : Nat, j < min s.size (n - 1) →
        m3 (dst + (j : Int)) = s.index mem j ∧ s.index m3 j = s.index mem j) ∧
      m3 (dst + ((min s.size (n - 1) : Nat) : Int)) = some 0 ∧
      min s.size (n - 1) < n := by
  obtain ⟨k, m3, h⟩ := copy_to_total mem s dst n hn hs hw
  obtain ⟨hk, hz, hframe, _, hcont⟩ := copy_to_post mem s dst n hn hd (by omega) k m3 h
  subst hk
  refine ⟨m3, h, ?_, hz, ?_⟩
  · intro j hj
    have hjs : j < s.m_size := lt_of_lt_of_le hj (Nat.min_le_left _ _)
    refine ⟨hcont hdisj j hj, ?_⟩
    simp only [StringSlice.index]
    by_cases hx : s.m_str + (j : Int) < dst ∨
        dst + ((min s.m_size (n - 1) : Nat) : Int) < s.m_str + (j : Int)
    · exact hframe _ hx
    · exfalso
      have h1 : dst ≤ s.m_str + (j : Int) := by omega
      have h2 : s.m_str + (j : Int) ≤ dst + ((min s.m_size (n - 1) : Nat) : Int) := by omega
      have h3 : min s.m_size (n - 1) < n := by omega
      apply hdisj j hjs (s.m_str + (j : Int) - dst).toNat (by omega)
      omega
  · simp only [StringSlice.size]
    omega

theorem copy_to_spec_witness :
    Readable memBob ⟨100, 3⟩ ∧ (104 : Int) ≠ nullptr ∧ 1 ≤ 4 ∧ 4 < sizeMod ∧
    Writable memBob 104 4 ∧ NoOverlap ⟨100, 3⟩ 104 4 ∧
    ∃ m3 : Mem, StringSlice.copy_to memBob ⟨100, 3⟩ 104 4
        = some (min (StringSlice.size ⟨100, 3⟩) (4 - 1), m3) ∧
      (∀ j : Nat, j < min (StringSlice.size ⟨100, 3⟩) (4 - 1) →
        m3 (104 + (j : Int)) = StringSlice.index memBob ⟨100, 3⟩ j ∧
        StringSlice.index m3 ⟨100, 3⟩ j = StringSlice.index memBob ⟨100, 3⟩ j) ∧
      m3 (104 + ((min (StringSlice.size ⟨100, 3⟩) (4 - 1) : Nat) : Int)) = some 0 ∧
      min (StringSlice.size ⟨100, 3⟩) (4 - 1) < 4 :=
  ⟨by decide, by decide, by decide, by decide, by decide, by decide,
    copy_to_spec memBob ⟨100, 3⟩ 104 4 (by decide) (by decide) (by decide) (by decide)
      (by decide) (by decide)⟩

/-- C7. For every view `s`, destination `dst` and capacity `n` (a `size_type` value):
`s.copy_to(dst, n)` returns when `s` is readable and the `n` bytes of `dst` are writable,
and whenever it returns, with count `k`, every destination byte at an index `>= n` and
every destination byte at an index `> k` holds the value it held before the call, as does
every byte of storage outside `dst[0 .. n)`. -/
theorem copy_to_frame (mem : Mem) (s : StringSlice) (dst : Int) (n : Nat) (hn : n < sizeMod) :
    (Readable mem s → Writable mem dst n →
      ∃ (k : Nat) (m3 : Mem), s.copy_to mem dst n = some (k, m3)) ∧
    (∀ (k : Nat) (m3 : Mem), s.copy_to mem dst n = some (k, m3) →
      (∀ j : Nat, n ≤ j → m3 (dst + (j : Int)) = mem (dst + (j : Int))) ∧
      (∀ j : Nat, k < j → m3 (dst + (j : Int)) = mem (dst + (j : Int))) ∧
      (∀ x : Int, x < dst ∨ dst + (n : Int) ≤ x → m3 x = mem x)) := by
  refine ⟨fun hs hw => copy_to_total mem s dst n hn hs hw, ?_⟩
  intro k m3 h
  by_cases hd : dst = nullptr ∨ n = 0
  · unfold StringSlice.copy_to at h
    rw [if_pos hd] at h
    have e := Option.some.inj h
    have e2 : mem = m3 := congrArg Prod.snd e
    subst e2
    exact ⟨fun _ _ => rfl, fun _ _ => rfl, fun _ _ => rfl⟩
  · have hd1 : dst ≠ nullptr := fun e => hd (Or.inl e)
    have hn0 : n ≠ 0 := fun e => hd (Or.inr e)
    obtain ⟨hk, _, hframe, _, _⟩ := copy_to_post mem s dst n hn hd1 hn0 k m3 h
    refine ⟨?_, ?_, ?_⟩
    · intro j hj
      apply hframe
      omega
    · intro j hj
      apply hframe
      omega
    · intro x hx
      apply hframe
      omega

theorem copy_to_frame_witness :
    4 < sizeMod ∧
    (Readable memHello ⟨100, 5⟩ → Writable memHello 106 4 →
      ∃ (k : Nat) (m3 : Mem), StringSlice.copy_to memHello ⟨100, 5⟩ 106 4 = some (k, m3)) ∧
    (∀ (k : Nat) (m3 : Mem), StringSlice.copy_to memHello ⟨100, 5⟩ 106 4 = some (k, m3) →
      (∀ j : Nat, 4 ≤ j → m3 (106 + (j : Int)) = memHello (106 + (j : Int))) ∧
      (∀ j : Nat, k < j → m3 (106 + (j : Int)) = memHello (106 + (j : Int))) ∧
      (∀ x : Int, x < 106 ∨ 106 + ((4 : Nat) : Int) ≤ x → m3 x = memHello x)) :=
  ⟨by decide, copy_to_frame memHello ⟨100, 5⟩ 106 4 (by decide)⟩

/-- C8. For every view `s` and every storage: `s.copy_to(nullptr, n)` returns `0` for every
`n`, and `s.copy_to(dst, 0)` returns `0` for every `dst`; in both cases the storage after
the call is the storage before it, so no byte is changed. -/
theorem copy_to_invalid (mem : Mem) (s : StringSlice) (dst : Int) (n : Nat) :
    s.copy_to mem nullptr n = some (0, mem) ∧ s.copy_to mem dst 0 = some (0, mem) := by
  constructor
  · unfold StringSlice.copy_to
    rw [if_pos (Or.inl rfl)]
  · unfold StringSlice.copy_to
    rw [if_pos (Or.inr rfl)]

/-! ## find -/

theorem findLoop_spec (mem : Mem) (s : StringSlice) (c : Byte) (hs : Readable mem s) :
    ∀ (fuel i : Nat), i ≤ s.m_size → s.m_size - i < fuel →
      ∃ r : Nat, s.findLoop mem c fuel i = some r ∧
        ((i ≤ r ∧ r < s.m_size ∧ s.index mem r = some c ∧
            ∀ j : Nat, i ≤ j → j < r → s.index mem j ≠ some c) ∨
          (r = npos ∧ ∀ j : Nat, i ≤ j → j < s.m_size → s.index mem j ≠ some c)) := by
  intro fuel
  induction fuel with
  | zero => intro i _ h; omega
  | succ n ih =>
    intro i hi hf
    rw [StringSlice.findLoop]
    by_cases hc : i < s.m_size
    · rw [if_pos hc]
      obtain ⟨x, hx⟩ := Option.isSome_iff_exists.mp (hs.2 i hc)
      simp only [hx]
      by_cases hxc : x = c
      · rw [if_pos hxc]
        refine ⟨i, rfl, Or.inl ⟨le_refl _, hc, ?_, ?_⟩⟩
        · simp only [StringSlice.index]
          rw [hx, hxc]
        · intro j h1 h2
          omega
      · rw [if_neg hxc, succ_mod_sizeMod i s.m_size hc hs.1]
        obtain ⟨r, hr, hspec⟩ := ih (i + 1) (by omega) (by omega)
        have hi_ne : s.index mem i ≠ some c := by
          simp only [StringSlice.index]
          rw [hx]
          exact fun e => hxc (Option.some.inj e)
        refine ⟨r, hr, ?_⟩
        rcases hspec with ⟨h1, h2, h3, h4⟩ | ⟨h1, h2⟩
        · refine Or.inl ⟨by omega, h2, h3, ?_⟩
          intro j hj1 hj2
          rcases Nat.eq_or_lt_of_le hj1 with e | e
          · subst e; exact hi_ne
          · exact h4 j (by omega) hj2
        · refine Or.inr ⟨h1, ?_⟩
          intro j hj1 hj2
          rcases Nat.eq_or_lt_of_le hj1 with e | e
          · subst e; exact hi_ne
          · exact h2 j (by omega) hj2
    · rw [if_neg hc]
      refine ⟨npos, rfl, Or.inr ⟨rfl, ?_⟩⟩
      intro j h1 h2
      omega

theorem findLoop_congr (mem mem2 : Mem) (s : StringSlice) (c : Byte)
    (h : ∀ j : Nat, j < s.m_size → mem2 (s.m_str + (j : Int)) = mem (s.m_str + (j : Int))) :
    ∀ (fuel i : Nat), s.findLoop mem2 c fuel i = s.findLoop mem c fuel i := by
  intro fuel
  induction fuel with
  | zero => intro i; rfl
  | succ n ih =>
    intro i
    rw [StringSlice.findLoop, StringSlice.findLoop]
    by_cases hc : i < s.m_size
    · rw [if_pos hc, if_pos hc, h i hc]
      cases mem (s.m_str + (i : Int)) with
      | none => rfl
      | some x =>
        simp only []
        rw [ih]
    · rw [if_neg hc, if_neg hc]

/-- C9. For a readable view `s`, a byte `c` and a start index: `s.find(c, start)` returns
the smallest index `i` with `start <= i < s.size()` whose byte is `c` when there is one, and
`npos` otherwise, in particular whenever `start >= s.size()`. The result is `npos` or an
index below `s.size()` (never both), and it is the same in every storage that holds the
same bytes inside the view: bytes at or beyond `s.size()` are never matched. -/
theorem find_spec (mem : Mem) (s : StringSlice) (c : Byte) (start : Nat)
    (hs : Readable mem s) :
    ∃ r : Nat, s.find mem c start = some r ∧
      ((∃ i : Nat, start ≤ i ∧ i < s.size ∧ s.index mem i = some c) →
        start ≤ r ∧ r < s.size ∧ s.index mem r = some c ∧
        ∀ j : Nat, start ≤ j → j < r → s.index mem j ≠ some c) ∧
      ((¬ ∃ i : Nat, start ≤ i ∧ i < s.size ∧ s.index mem i = some c) → r = npos) ∧
      (s.size ≤ start → r = npos) ∧
      (r = npos ∨ r < s.size) ∧ ¬ (r = npos ∧ r < s.size) ∧
      (∀ mem2 : Mem, (∀ j : Nat, j < s.size → s.index mem2 j = s.index mem j) →
        s.find mem2 c start = some r) := by
  have hsz : s.m_size < sizeMod := hs.1
  have hnp : npos + 1 = sizeMod := rfl
  simp only [StringSlice.size]
  by_cases hst : start ≥ s.m_size
  · have e : ∀ m : Mem, s.find m c start = some npos := by
      intro m
      unfold StringSlice.find
      rw [if_pos hst]
    refine ⟨npos, e mem, ?_, fun _ => rfl, fun _ => rfl, Or.inl rfl, by omega,
      fun m2 _ => e m2⟩
    rintro ⟨i, h1, h2, _⟩
    omega
  · have e : ∀ m : Mem, s.find m c start = s.findLoop m c (s.m_size + 1) start := by
      intro m
      unfold StringSlice.find
      rw [if_neg hst]
    obtain ⟨r, hr, hspec⟩ := findLoop_spec mem s c hs (s.m_size + 1) start (by omega) (by omega)
    refine ⟨r, by rw [e, hr], ?_, ?_, ?_, ?_, ?_, ?_⟩
    · rintro ⟨i, h1, h2, h3⟩
      rcases hspec with ⟨g1, g2, g3, g4⟩ | ⟨_, g2⟩
      · exact ⟨g1, g2, g3, g4⟩
      · exact absurd h3 (g2 i h1 h2)
    · intro hno
      rcases hspec with ⟨g1, g2, g3, _⟩ | ⟨g1, _⟩
      · exact absurd ⟨r, g1, g2, g3⟩ hno
      · exact g1
    · intro h
      omega
    · rcases hspec with ⟨_, g2, _, _⟩ | ⟨g1, _⟩
      · exact Or.inr g2
      · exact Or.inl g1
    · omega
    · intro mem2 h2
      rw [e, findLoop_congr mem mem2 s c h2, hr]

theorem find_spec_witness :
    Readable memTestTwo ⟨100, 8⟩ ∧
    ∃ r : Nat, StringSlice.find memTestTwo ⟨100, 8⟩ 32 0 = some r ∧
      (r = npos ∨ r < StringSlice.size ⟨100, 8⟩) :=
  ⟨by decide,
    (find_spec memTestTwo ⟨100, 8⟩ 32 0 (by decide)).imp (fun _ h => ⟨h.1, h.2.2.2.2.1⟩)⟩

/-! ## lstrip -/

theorem is_whitespace_iff (c : Byte) :
    is_whitespace c = true ↔ (c = 13 ∨ c = 10 ∨ c = 9 ∨ c = 32) := by
  simp [is_whitespace, or_assoc]

theorem lstripLoop_spec (mem : Mem) (s : StringSlice) (hs : Readable mem s) :
    ∀ (fuel i : Nat), i ≤ s.m_size → s.m_size - i < fuel →
      ∃ k : Nat, i ≤ k ∧ k ≤ s.m_size ∧
        StringSlice.lstripLoop mem (s.m_str + (s.m_size : Int)) fuel (s.m_str + (i : Int))
          = some (s.m_str + (k : Int)) ∧
        (∀ j : Nat, i ≤ j → j < k → (s.index mem j).map is_whitespace = some true) ∧
        (k < s.m_size → (s.index mem k).map is_whitespace = some false) := by
  intro fuel
  induction fuel with
  | zero => intro i _ h; omega
  | succ n ih =>
    intro i hi hf
    rw [StringSlice.lstripLoop]
    by_cases hc : i < s.m_size
    · rw [if_pos (by omega)]
      obtain ⟨x, hx⟩ := Option.isSome_iff_exists.mp (hs.2 i hc)
      simp only [hx]
      cases hws : is_whitespace x with
      | false =>
        refine ⟨i, le_refl _, hi, by simp, ?_, ?_⟩
        · intro j h1 h2
          omega
        · intro _
          simp only [StringSlice.index]
          rw [hx]
          simp [hws]
      | true =>
        obtain ⟨k, hk1, hk2, hk3, hk4, hk5⟩ := ih (i + 1) (by omega) (by omega)
        refine ⟨k, by omega, hk2, ?_, ?_, hk5⟩
        · simp only [Bool.not_true, Bool.false_eq_true, if_false]
          rw [← hk3]
          congr 1
          push_cast
          ring
        · intro j h1 h2
          rcases Nat.eq_or_lt_of_le h1 with e | e
          · subst e
            simp only [StringSlice.index]
            rw [hx]
            simp [hws]
          · exact hk4 j (by omega) h2
    · rw [if_neg (by omega)]
      have e : i = s.m_size := by omega
      subst e
      refine ⟨s.m_size, le_refl _, le_refl _, rfl, ?_, ?_⟩
      · intro j h1 h2
        omega
      · intro h
        omega

/-- C10. For a readable view `s`, `s.lstrip()` returns the suffix of `s` that begins at
index `k`, where every byte of `s` before `k` is one of `'\r'`, `'\n'`, `'\t'`, `' '` and the
byte at `k`, if `k < s.size()`, is none of them; the suffix runs to the end of `s`, so the
bytes after `k` are kept. The result is empty when `s` is empty or holds only whitespace
bytes, and it is `s` itself when `s` is empty or its first byte is not whitespace. -/
theorem lstrip_spec (mem : Mem) (s : StringSlice) (hs : Readable mem s) :
    ∃ (t : StringSlice) (k : Nat), s.lstrip mem = some t ∧ k ≤ s.size ∧
      t.data = s.data + (k : Int) ∧ t.size = s.size - k ∧
      (∀ j : Nat, j < t.size → t.index mem j = s.index mem (k + j)) ∧
      (∀ j : Nat, j < k → (s.index mem j).map is_whitespace = some true) ∧
      (k < s.size → (s.index mem k).map is_whitespace = some false) ∧
      ((∀ j : Nat, j < s.size → (s.index mem j).map is_whitespace = some true) →
        t.empty = true) ∧
      (s.size = 0 ∨ (s.index mem 0).map is_whitespace = some false → t = s) ∧
      (∀ c : Byte, is_whitespace c = true ↔ (c = 13 ∨ c = 10 ∨ c = 9 ∨ c = 32)) := by
  obtain ⟨k, _, hk2, hk3, hk4, hk5⟩ :=
    lstripLoop_spec mem s hs (s.m_size + 1) 0 (by omega) (by omega)
  have hk3a : StringSlice.lstripLoop mem (s.m_str + (s.m_size : Int)) (s.m_size + 1) s.m_str
      = some (s.m_str + (k : Int)) := by
    have e : s.m_str + ((0 : Nat) : Int) = s.m_str := by simp
    rw [e] at hk3
    exact hk3
  have hsz : toSizeType (s.m_str + (s.m_size : Int) - (s.m_str + (k : Int))) = s.m_size - k := by
    have e : s.m_str + (s.m_size : Int) - (s.m_str + (k : Int)) = (s.m_size : Int) - (k : Int) := by
      ring
    rw [e]
    exact toSizeType_sub _ _ hk2 hs.1
  have hl : s.lstrip mem = some ⟨s.m_str + (k : Int), s.m_size - k⟩ := by
    unfold StringSlice.lstrip
    simp only [hk3a, hsz, StringSlice.ofPtrSize]
  refine ⟨⟨s.m_str + (k : Int), s.m_size - k⟩, k, hl, hk2, rfl, rfl, ?_, ?_, hk5, ?_, ?_,
    is_whitespace_iff⟩
  · intro j _
    simp only [StringSlice.index]
    congr 1
    push_cast
    ring
  · intro j hj
    exact hk4 j (Nat.zero_le j) hj
  · intro hall
    have hk : k = s.m_size := by
      by_contra hne
      have hlt : k < s.m_size := by omega
      have h1 := hk5 hlt
      have h2 := hall k hlt
      rw [h1] at h2
      cases h2
    simp [StringSlice.empty, hk]
  · intro h0
    have hk : k = 0 := by
      by_contra hne
      have hpos : 0 < k := Nat.pos_of_ne_zero hne
      rcases h0 with h0 | h0
      · simp only [StringSlice.size] at h0
        omega
      · have h1 := hk4 0 (le_refl 0) hpos
        rw [h0] at h1
        cases h1
    subst hk
    simp

theorem lstrip_spec_witness :
    Readable memStrip ⟨100, 8⟩ ∧
    ∃ (t : StringSlice) (k : Nat), StringSlice.lstrip memStrip ⟨100, 8⟩ = some t ∧
      k ≤ StringSlice.size ⟨100, 8⟩ ∧ t.size = StringSlice.size ⟨100, 8⟩ - k :=
  ⟨by decide,
    (lstrip_spec memStrip ⟨100, 8⟩ (by decide)).imp
      (fun _ h => h.imp (fun _ g => ⟨g.1, g.2.1, g.2.2.2.1⟩))⟩

/-! ## rstrip -/

theorem lstrip_core (mem : Mem) (s : StringSlice) (hs : Readable mem s) :
    ∃ k : Nat, k ≤ s.m_size ∧ s.lstrip mem = some ⟨s.m_str + (k : Int), s.m_size - k⟩ ∧
      (∀ j : Nat, j < k → (s.index mem j).map is_whitespace = some true) ∧
      (k < s.m_size → (s.index mem k).map is_whitespace = some false) := by
  obtain ⟨k, _, hk2, hk3, hk4, hk5⟩ :=
    lstripLoop_spec mem s hs (s.m_size + 1) 0 (by omega) (by omega)
  have e : s.m_str + ((0 : Nat) : Int) = s.m_str := by simp
  rw [e] at hk3
  have hsz : toSizeType (s.m_str + (s.m_size : Int) - (s.m_str + (k : Int))) = s.m_size - k := by
    have e1 : s.m_str + (s.m_size : Int) - (s.m_str + (k : Int))
        = (s.m_size : Int) - (k : Int) := by ring
    rw [e1]
    exact toSizeType_sub _ _ hk2 hs.1
  refine ⟨k, hk2, ?_, fun j hj => hk4 j (Nat.zero_le j) hj, hk5⟩
  unfold StringSlice.lstrip
  simp only [hk3, hsz, StringSlice.ofPtrSize]

theorem rstripLoop_spec (mem : Mem) (s : StringSlice) (hs : Readable mem s) :
    ∀ (fuel i : Nat), i ≤ s.m_size → i < fuel →
      ∃ k : Nat, k ≤ i ∧
        StringSlice.rstripLoop mem s.m_str fuel (s.m_str + (i : Int))
          = some (s.m_str + (k : Int) - 1) ∧
        (∀ j : Nat, k ≤ j → j < i → (s.index mem j).map is_whitespace = some true) ∧
        (0 < k → (s.index mem (k - 1)).map is_whitespace = some false) := by
  intro fuel
  induction fuel with
  | zero => intro i _ h; omega
  | succ n ih =>
    intro i hi hf
    rw [StringSlice.rstripLoop]
    by_cases h0 : 0 < i
    · have hc : decide (s.m_str + (i : Int) > s.m_str) = true := by
        rw [decide_eq_true_eq]
        omega
      have e : s.m_str + (i : Int) - 1 = s.m_str + ((i - 1 : Nat) : Int) := by omega
      obtain ⟨x, hx⟩ := Option.isSome_iff_exists.mp (hs.2 (i - 1) (by omega))
      simp only [hc, e, hx, if_true]
      cases hws : is_whitespace x with
      | false =>
        refine ⟨i, le_refl _, by simp [e], ?_, ?_⟩
        · intro j h1 h2
          omega
        · intro _
          simp only [StringSlice.index]
          rw [hx]
          simp [hws]
      | true =>
        obtain ⟨k, hk1, hk2, hk3, hk4⟩ := ih (i - 1) (by omega) (by omega)
        refine ⟨k, by omega, ?_, ?_, hk4⟩
        · simp only [Bool.not_true, Bool.false_eq_true, if_false]
          exact hk2
        · intro j h1 h2
          rcases Nat.lt_or_ge j (i - 1) with c | c
          · exact hk3 j h1 c
          · have ej : j = i - 1 := by omega
            subst ej
            simp only [StringSlice.index]
            rw [hx]
            simp [hws]
    · have hi0 : i = 0 := by omega
      subst hi0
      have hc : decide (s.m_str + ((0 : Nat) : Int) > s.m_str) = false := by
        rw [decide_eq_false_iff_not]
        omega
      simp only [hc]
      refine ⟨0, le_refl _, by simp, ?_, ?_⟩
      · intro j h1 h2
        omega
      · intro h
        omega

theorem rstrip_core (mem : Mem) (s : StringSlice) (hs : Readable mem s) :
    ∃ k : Nat, k ≤ s.m_size ∧ s.rstrip mem = some ⟨s.m_str, k⟩ ∧
      (∀ j : Nat, k ≤ j → j < s.m_size → (s.index mem j).map is_whitespace = some true) ∧
      (0 < k → (s.index mem (k - 1)).map is_whitespace = some false) := by
  obtain ⟨k, hk1, hk2, hk3, hk4⟩ :=
    rstripLoop_spec mem s hs (s.m_size + 1) s.m_size (le_refl _) (by omega)
  have hsz : toSizeType (s.m_str + (k : Int) - 1 + 1 - s.m_str) = k := by
    have e1 : s.m_str + (k : Int) - 1 + 1 - s.m_str = (k : Int) - ((0 : Nat) : Int) := by
      push_cast
      ring
    rw [e1]
    exact toSizeType_sub k 0 (Nat.zero_le k) (by have := hs.1; omega)
  refine ⟨k, hk1, ?_, hk3, hk4⟩
  unfold StringSlice.rstrip
  simp only [hk2, hsz, StringSlice.ofPtrSize]

/-- C11. For a readable view `s`, `s.rstrip()` returns the prefix of `s` that starts at index
`0` (same `data()`) and has size `k`, where every byte of `s` at an index `>= k` is one of
`'\r'`, `'\n'`, `'\t'`, `' '` and the byte at `k - 1`, if `k > 0`, is none of them; the
bytes before `k`, leading whitespace included, are kept. The result is empty when `s` is
empty or holds only whitespace bytes, and it is `s` itself when `s` is empty or its last
byte is not whitespace. -/
theorem rstrip_spec (mem : Mem) (s : StringSlice) (hs : Readable mem s) :
    ∃ (t : StringSlice) (k : Nat), s.rstrip mem = some t ∧ k ≤ s.size ∧
      t.data = s.data ∧ t.size = k ∧
      (∀ j : Nat, j < t.size → t.index mem j = s.index mem j) ∧
      (∀ j : Nat, k ≤ j → j < s.size → (s.index mem j).map is_whitespace = some true) ∧
      (0 < k → (s.index mem (k - 1)).map is_whitespace = some false) ∧
      ((∀ j : Nat, j < s.size → (s.index mem j).map is_whitespace = some true) →
        t.empty = true) ∧
      (s.size = 0 ∨ (s.index mem (s.size - 1)).map is_whitespace = some false → t = s) ∧
      (∀ c : Byte, is_whitespace c = true ↔ (c = 13 ∨ c = 10 ∨ c = 9 ∨ c = 32)) := by
  obtain ⟨k, hk1, hk2, hk3, hk4⟩ := rstrip_core mem s hs
  refine ⟨⟨s.m_str, k⟩, k, hk2, hk1, rfl, rfl, fun _ _ => rfl, hk3, hk4, ?_, ?_,
    is_whitespace_iff⟩
  · intro hall
    have hk : k = 0 := by
      by_contra hne
      have hpos : 0 < k := Nat.pos_of_ne_zero hne
      have h1 := hk4 hpos
      have h2 := hall (k - 1) (by simp only [StringSlice.size]; omega)
      rw [h1] at h2
      cases h2
    simp [StringSlice.empty, hk]
  · intro h0
    have hk : k = s.m_size := by
      by_contra hne
      have hlt : k < s.m_size := by omega
      rcases h0 with h0 | h0
      · simp only [StringSlice.size] at h0
        omega
      · have h1 := hk3 (s.m_size - 1) (by omega) (by omega)
        simp only [StringSlice.size] at h0
        rw [h0] at h1
        cases h1
    subst hk
    rfl

theorem rstrip_spec_witness :
    Readable memStrip ⟨100, 8⟩ ∧
    ∃ (t : StringSlice) (k : Nat), StringSlice.rstrip memStrip ⟨100, 8⟩ = some t ∧
      k ≤ StringSlice.size ⟨100, 8⟩ ∧ t.data = StringSlice.data ⟨100, 8⟩ ∧ t.size = k :=
  ⟨by decide,
    (rstrip_spec memStrip ⟨100, 8⟩ (by decide)).imp
      (fun _ h => h.imp (fun _ g => ⟨g.1, g.2.1, g.2.2.1, g.2.2.2.1⟩))⟩

/-! ## strip -/

theorem readable_sub (mem : Mem) (s : StringSlice) (hs : Readable mem s) (k n : Nat)
    (h : k + n ≤ s.m_size) : Readable mem ⟨s.m_str + (k : Int), n⟩ := by
  refine ⟨by have := hs.1; show n < sizeMod; omega, ?_⟩
  intro i hi
  have := hs.2 (k + i) (by simp only at hi; omega)
  have e : s.m_str + (k : Int) + (i : Int) = s.m_str + ((k + i : Nat) : Int) := by
    push_cast
    ring
  show (mem (s.m_str + (k : Int) + (i : Int))).isSome = true
  rw [e]
  exact this

theorem readable_initial (mem : Mem) (s : StringSlice) (hs : Readable mem s) (n : Nat)
    (h : n ≤ s.m_size) : Readable mem ⟨s.m_str, n⟩ := by
  refine ⟨by have := hs.1; show n < sizeMod; omega, ?_⟩
  intro i hi
  exact hs.2 i (by simp only at hi; omega)

theorem strip_core (mem : Mem) (s : StringSlice) (hs : Readable mem s) :
    ∃ k n1 : Nat, k ≤ n1 ∧ n1 ≤ s.m_size ∧
      s.strip mem = some ⟨s.m_str + (k : Int), n1 - k⟩ ∧
      (∀ j : Nat, j < k → (s.index mem j).map is_whitespace = some true) ∧
      (∀ j : Nat, n1 ≤ j → j < s.m_size → (s.index mem j).map is_whitespace = some true) ∧
      (k < n1 → (s.index mem k).map is_whitespace = some false) ∧
      (0 < n1 → (s.index mem (n1 - 1)).map is_whitespace = some false) := by
  obtain ⟨n1, hn1, hr, hr1, hr2⟩ := rstrip_core mem s hs
  obtain ⟨k, hk, hl, hl1, hl2⟩ := lstrip_core mem ⟨s.m_str, n1⟩ (readable_initial mem s hs n1 hn1)
  refine ⟨k, n1, hk, hn1, ?_, hl1, hr1, hl2, hr2⟩
  unfold StringSlice.strip
  rw [hr]
  exact hl

/-- C12. For a readable view `s`, `s.strip()` returns a contiguous sub-range of `s`: it
starts at index `k` of `s` and has size `n`, with `k + n <= s.size()`. Every byte of `s`
before index `k` and every byte of `s` at an index `>= k + n` is one of `'\r'`, `'\n'`,
`'\t'`, `' '`; the result is empty, or its first byte and its last byte are none of them.
When `s` is empty or holds only whitespace bytes the result is empty. -/
theorem strip_spec (mem : Mem) (s : StringSlice) (hs : Readable mem s) :
    ∃ (t : StringSlice) (k : Nat), s.strip mem = some t ∧ k + t.size ≤ s.size ∧
      t.data = s.data + (k : Int) ∧
      (∀ j : Nat, j < t.size → t.index mem j = s.index mem (k + j)) ∧
      (∀ j : Nat, j < k → (s.index mem j).map is_whitespace = some true) ∧
      (∀ j : Nat, k + t.size ≤ j → j < s.size →
        (s.index mem j).map is_whitespace = some true) ∧
      (t.empty = true ∨
        ((t.index mem 0).map is_whitespace = some false ∧
          (t.index mem (t.size - 1)).map is_whitespace = some false)) ∧
      ((∀ j : Nat, j < s.size → (s.index mem j).map is_whitespace = some true) →
        t.empty = true) ∧
      (∀ c : Byte, is_whitespace c = true ↔ (c = 13 ∨ c = 10 ∨ c = 9 ∨ c = 32)) := by
  obtain ⟨k, n1, hk, hn1, hst, h1, h2, h3, h4⟩ := strip_core mem s hs
  have hidx : ∀ j : Nat, StringSlice.index mem ⟨s.m_str + (k : Int), n1 - k⟩ j
      = s.index mem (k + j) := by
    intro j
    simp only [StringSlice.index]
    congr 1
    push_cast
    ring
  refine ⟨⟨s.m_str + (k : Int), n1 - k⟩, k, hst, ?_, rfl, fun j _ => hidx j, h1, ?_, ?_, ?_,
    is_whitespace_iff⟩
  · simp only [StringSlice.size]
    omega
  · intro j hj1 hj2
    simp only [StringSlice.size] at hj1 hj2
    exact h2 j (by omega) hj2
  · by_cases hlt : k < n1
    · right
      rw [hidx, hidx]
      simp only [StringSlice.size]
      refine ⟨h3 hlt, ?_⟩
      have e : k + (n1 - k - 1) = n1 - 1 := by omega
      rw [e]
      exact h4 (by omega)
    · left
      have e : n1 - k = 0 := by omega
      simp [StringSlice.empty, e]
  · intro hall
    have e : n1 - k = 0 := by
      by_contra hne
      have hlt : k < n1 := by omega
      have a := h3 hlt
      have b := hall k (by simp only [StringSlice.size]; omega)
      rw [a] at b
      cases b
    simp [StringSlice.empty, e]

theorem strip_spec_witness :
    Readable memStrip ⟨100, 8⟩ ∧
    ∃ (t : StringSlice) (k : Nat), StringSlice.strip memStrip ⟨100, 8⟩ = some t ∧
      k + t.size ≤ StringSlice.size ⟨100, 8⟩ ∧
      t.data = StringSlice.data ⟨100, 8⟩ + (k : Int) :=
  ⟨by decide,
    (strip_spec memStrip ⟨100, 8⟩ (by decide)).imp
      (fun _ h => h.imp (fun _ g => ⟨g.1, g.2.1, g.2.2.1⟩))⟩

/-! ## get_line -/

theorem get_lineLoop_spec (mem : Mem) (s : StringSlice) (hs : Readable mem s) :
    ∀ (fuel i : Nat), i ≤ s.m_size → s.m_size - i < fuel →
      (∀ j : Nat, j < i → s.index mem j ≠ some 10) →
      (∃ n : Nat, n < s.m_size ∧ s.index mem n = some 10 ∧
          (∀ j : Nat, j < n → s.index mem j ≠ some 10) ∧
          get_lineLoop mem s fuel i = some ⟨s.m_str, n + 1⟩) ∨
        ((∀ j : Nat, j < s.m_size → s.index mem j ≠ some 10) ∧
          get_lineLoop mem s fuel i = some s) := by
  intro fuel
  induction fuel with
  | zero => intro i _ h; omega
  | succ m ih =>
    intro i hi hf hpre
    rw [get_lineLoop]
    by_cases hc : i < s.m_size
    · rw [if_pos (show i < s.size from hc)]
      obtain ⟨x, hx⟩ := Option.isSome_iff_exists.mp (hs.2 i hc)
      have hx1 : s.index mem i = some x := hx
      simp only [hx1]
      by_cases hx10 : x = 10
      · left
        rw [if_pos hx10, succ_mod_sizeMod i s.m_size hc hs.1]
        refine ⟨i, hc, ?_, hpre, rfl⟩
        rw [hx1, hx10]
      · rw [if_neg hx10, succ_mod_sizeMod i s.m_size hc hs.1]
        apply ih (i + 1) (by omega) (by omega)
        intro j hj
        rcases Nat.lt_or_ge j i with c | c
        · exact hpre j c
        · have e : j = i := by omega
          subst e
          rw [hx1]
          exact fun h => hx10 (Option.some.inj h)
    · rw [if_neg (show ¬ i < s.size from hc)]
      right
      refine ⟨?_, rfl⟩
      intro j hj
      exact hpre j (by omega)

theorem get_line_core (mem : Mem) (s : StringSlice) (hs : Readable mem s) :
    (∃ n : Nat, n < s.m_size ∧ s.index mem n = some 10 ∧
        (∀ j : Nat, j < n → s.index mem j ≠ some 10) ∧
        get_line mem s = some ⟨s.m_str, n + 1⟩) ∨
      ((∀ j : Nat, j < s.m_size → s.index mem j ≠ some 10) ∧ get_line mem s = some s) :=
  get_lineLoop_spec mem s hs (s.m_size + 1) 0 (Nat.zero_le _) (by omega)
    (fun j hj => absurd hj (Nat.not_lt_zero j))

/-- C13. For a readable view `s`, `get_line(s)` returns a prefix of `s` (same `data()`, size
at most `s.size()`, same bytes). If `i` is the index of the first `'\n'` byte of `s`, the
result has size `i + 1`, its last byte is that `'\n'` and no earlier byte of it is `'\n'`. If
`s` holds no `'\n'` the result is `s` itself. The function returns only the new view: the
input view and the storage are not changed. -/
theorem get_line_spec (mem : Mem) (s : StringSlice) (hs : Readable mem s) :
    ∃ t : StringSlice, get_line mem s = some t ∧ t.data = s.data ∧ t.size ≤ s.size ∧
      (∀ j : Nat, j < t.size → t.index mem j = s.index mem j) ∧
      (∀ i : Nat, i < s.size → s.index mem i = some 10 →
        (∀ j : Nat, j < i → s.index mem j ≠ some 10) →
        t.size = i + 1 ∧ t.index mem (t.size - 1) = some 10 ∧
        ∀ j : Nat, j < t.size - 1 → t.index mem j ≠ some 10) ∧
      ((∀ j : Nat, j < s.size → s.index mem j ≠ some 10) → t = s ∧ t.size = s.size) := by
  simp only [StringSlice.size]
  rcases get_line_core mem s hs with ⟨n, hn, h10, hpre, hg⟩ | ⟨hno, hg⟩
  · refine ⟨⟨s.m_str, n + 1⟩, hg, rfl, by show n + 1 ≤ s.m_size; omega, fun _ _ => rfl, ?_, ?_⟩
    · intro i hi hi10 hipre
      have e : i = n := by
        rcases Nat.lt_trichotomy i n with c | c | c
        · exact absurd hi10 (hpre i c)
        · exact c
        · exact absurd h10 (hipre n c)
      subst e
      refine ⟨rfl, ?_, ?_⟩
      · show s.index mem (i + 1 - 1) = some 10
        rw [Nat.add_sub_cancel]
        exact hi10
      · intro j hj
        have hj' : j < i := by
          change j < i + 1 - 1 at hj
          omega
        exact hpre j hj'
    · intro hno
      exact absurd h10 (hno n hn)
  · refine ⟨s, hg, rfl, le_refl _, fun _ _ => rfl, ?_, fun _ => ⟨rfl, rfl⟩⟩
    intro i hi hi10 _
    exact absurd hi10 (hno i hi)

theorem get_line_spec_witness :
    Readable memLines ⟨100, 18⟩ ∧
    ∃ t : StringSlice, get_line memLines ⟨100, 18⟩ = some t ∧
      t.data = StringSlice.data ⟨100, 18⟩ ∧ t.size ≤ StringSlice.size ⟨100, 18⟩ :=
  ⟨by decide,
    (get_line_spec memLines ⟨100, 18⟩ (by decide)).imp (fun _ h => ⟨h.1, h.2.1, h.2.2.1⟩)⟩

/-! ## The iteration over lines -/

theorem substr_npos_of_lt (s : StringSlice) (pos : Nat) (hp : pos < s.m_size)
    (hs : s.m_size < sizeMod) :
    s.substr pos npos = ⟨s.m_str + (pos : Int), s.m_size - pos⟩ := by
  have hnp : npos + 1 = sizeMod := rfl
  unfold StringSlice.substr StringSlice.ofPtrSize
  rw [if_pos hp, toSizeType_sub _ _ (le_of_lt hp) hs]
  simp only [StringSlice.mk.injEq, true_and]
  split_ifs <;> omega

theorem substr_of_ge (s : StringSlice) (pos len : Nat) (hp : s.m_size ≤ pos) :
    s.substr pos len = StringSlice.default := by
  unfold StringSlice.substr
  rw [if_neg (by omega)]

theorem bytes_split (mem : Mem) (p : Int) (a b : Nat) :
    StringSlice.bytes mem ⟨p, a + b⟩
      = StringSlice.bytes mem ⟨p, a⟩ ++ StringSlice.bytes mem ⟨p + (a : Int), b⟩ := by
  unfold StringSlice.bytes
  simp only
  rw [List.range_add, List.map_append, List.map_map]
  congr 1
  apply List.map_congr_left
  intro j _
  simp only [StringSlice.index, Function.comp]
  congr 1
  push_cast
  ring

theorem bytes_empty (mem : Mem) (p : Int) : StringSlice.bytes mem ⟨p, 0⟩ = [] := rfl

theorem lineStep_core (mem : Mem) (rest : StringSlice) (hr : Readable mem rest)
    (hne : rest.m_size ≠ 0) :
    ∃ (l : Nat) (rest1 : StringSlice), 1 ≤ l ∧ l ≤ rest.m_size ∧
      lineStep mem rest = some (⟨rest.m_str, l⟩, rest1) ∧
      rest1.m_size = rest.m_size - l ∧ Readable mem rest1 ∧
      rest.bytes mem = StringSlice.bytes mem ⟨rest.m_str, l⟩ ++ rest1.bytes mem := by
  -- the line has some size `l` with `1 <= l <= rest.size()`
  have hline : ∃ l : Nat, 1 ≤ l ∧ l ≤ rest.m_size ∧ get_line mem rest = some ⟨rest.m_str, l⟩ := by
    rcases get_line_core mem rest hr with ⟨n, hn, _, _, hg⟩ | ⟨_, hg⟩
    · exact ⟨n + 1, by omega, by omega, hg⟩
    · exact ⟨rest.m_size, by omega, le_refl _, hg⟩
  obtain ⟨l, hl1, hl2, hg⟩ := hline
  have hstep : lineStep mem rest = some (⟨rest.m_str, l⟩, rest.substr l npos) := by
    unfold lineStep
    rw [hg]
    rfl
  have hb : rest.bytes mem = StringSlice.bytes mem ⟨rest.m_str, l⟩
      ++ StringSlice.bytes mem ⟨rest.m_str + (l : Int), rest.m_size - l⟩ := by
    have e : rest = ⟨rest.m_str, l + (rest.m_size - l)⟩ := by
      cases rest
      simp only [StringSlice.mk.injEq, true_and]
      simp only at hl2
      omega
    conv_lhs => rw [e]
    exact bytes_split mem rest.m_str l (rest.m_size - l)
  rcases Nat.lt_or_ge l rest.m_size with c | c
  · have hsub := substr_npos_of_lt rest l c hr.1
    refine ⟨l, _, hl1, hl2, hstep, ?_, ?_, ?_⟩
    · rw [hsub]
    · rw [hsub]
      exact readable_sub mem rest hr l (rest.m_size - l) (by omega)
    · rw [hsub]
      exact hb
  · have hsub := substr_of_ge rest l npos c
    refine ⟨l, _, hl1, hl2, hstep, ?_, ?_, ?_⟩
    · rw [hsub]
      show 0 = rest.m_size - l
      omega
    · rw [hsub]
      exact ⟨by decide, fun i hi => absurd hi (Nat.not_lt_zero i)⟩
    · rw [hsub, hb]
      have e : rest.m_size - l = 0 := by omega
      rw [e]
      rfl

theorem lines_spec (mem : Mem) :
    ∀ (fuel : Nat) (rest : StringSlice), Readable mem rest → rest.m_size < fuel →
      ∃ ls : List StringSlice, lines mem fuel rest = some ls ∧ ls.length ≤ rest.m_size ∧
        (∀ l : StringSlice, l ∈ ls → l.empty = false) ∧
        (ls.map (StringSlice.bytes mem)).flatten = rest.bytes mem := by
  intro fuel
  induction fuel with
  | zero => intro rest _ h; omega
  | succ n ih =>
    intro rest hr hf
    rw [lines]
    by_cases he : rest.m_size = 0
    · have hemp : rest.empty = true := by simp [StringSlice.empty, he]
      rw [if_pos hemp]
      refine ⟨[], rfl, Nat.zero_le _, ?_, ?_⟩
      · intro l hl
        cases hl
      · cases rest
        simp only at he
        subst he
        rfl
    · have hemp : ¬ rest.empty = true := by simp [StringSlice.empty, he]
      rw [if_neg hemp]
      obtain ⟨l, rest1, hl1, hl2, hstep, hsz, hr1, hb⟩ := lineStep_core mem rest hr he
      obtain ⟨ls, hls, hlen, hne, hcat⟩ := ih rest1 hr1 (by omega)
      simp only [hstep, hls, Option.map_some']
      refine ⟨_, rfl, ?_, ?_, ?_⟩
      · simp only [List.length_cons]
        omega
      · intro x hx
        rcases List.mem_cons.mp hx with e | e
        · subst e
          have : l ≠ 0 := by omega
          simp [StringSlice.empty, this]
        · exact hne x e
      · rw [List.map_cons, List.flatten_cons, hcat, hb]

/-- C14. The iteration `line = get_line(rest); rest = rest.substr(line.size())` started with
`rest = s`, for a readable view `s`. Each round on a non-empty readable `rest` produces a
non-empty line and a strictly smaller readable `rest`. Run while `rest` is not empty, the
iteration stops after at most `s.size()` rounds (any fuel above `s.size()` suffices), every
line it produced is non-empty, and the bytes of the lines, concatenated in order, are the
bytes of `s`. On an empty `rest`, `get_line(rest)` is `rest`, which is empty. -/
theorem lines_terminate (mem : Mem) (s : StringSlice) (hs : Readable mem s) :
    (∀ rest : StringSlice, Readable mem rest → rest.empty = false →
      ∃ line rest1 : StringSlice, lineStep mem rest = some (line, rest1) ∧
        line.empty = false ∧ rest1.size < rest.size ∧
        rest1.size = rest.size - line.size ∧ Readable mem rest1) ∧
    (∀ fuel : Nat, s.size < fuel →
      ∃ ls : List StringSlice, lines mem fuel s = some ls ∧ ls.length ≤ s.size ∧
        (∀ l : StringSlice, l ∈ ls → l.empty = false) ∧
        (ls.map (StringSlice.bytes mem)).flatten = s.bytes mem) ∧
    (∀ rest : StringSlice, rest.empty = true →
      get_line mem rest = some rest ∧ lines mem 1 rest = some []) := by
  refine ⟨?_, fun fuel hf => lines_spec mem fuel s hs hf, ?_⟩
  · intro rest hr he
    have hne : rest.m_size ≠ 0 := by
      intro h
      simp [StringSlice.empty, h] at he
    obtain ⟨l, rest1, hl1, hl2, hstep, hsz, hr1, _⟩ := lineStep_core mem rest hr hne
    refine ⟨⟨rest.m_str, l⟩, rest1, hstep, ?_, ?_, ?_, hr1⟩
    · have : l ≠ 0 := by omega
      simp [StringSlice.empty, this]
    · simp only [StringSlice.size]
      omega
    · simp only [StringSlice.size]
      omega
  · intro rest he
    have h0 : rest.m_size = 0 := by
      simpa [StringSlice.empty] using he
    constructor
    · unfold get_line
      rw [get_lineLoop, if_neg (by simp only [StringSlice.size]; omega)]
    · rw [lines, if_pos he]

theorem lines_terminate_witness :
    Readable memLines ⟨100, 18⟩ ∧
    (∀ fuel : Nat, StringSlice.size ⟨100, 18⟩ < fuel →
      ∃ ls : List StringSlice, lines memLines fuel ⟨100, 18⟩ = some ls ∧
        ls.length ≤ StringSlice.size ⟨100, 18⟩ ∧
        (∀ l : StringSlice, l ∈ ls → l.empty = false) ∧
        (ls.map (StringSlice.bytes memLines)).flatten
          = StringSlice.bytes memLines ⟨100, 18⟩) :=
  ⟨by decide, (lines_terminate memLines ⟨100, 18⟩ (by decide)).2.1⟩

/-! ## Algebra of strip -/

theorem index_sub (mem : Mem) (s : StringSlice) (k n j : Nat) :
    StringSlice.index mem ⟨s.m_str + (k : Int), n⟩ j = s.index mem (k + j) := by
  simp only [StringSlice.index]
  congr 1
  push_cast
  ring

theorem ws_contra {x : Option Bool} (h1 : x = some true) (h2 : x = some false) : False := by
  rw [h1] at h2
  cases h2

theorem op_eq_true_of (mem : Mem) (a b : StringSlice) (ha : Readable mem a)
    (hb : Readable mem b) (hsz : a.m_size = b.m_size)
    (hbytes : ∀ j : Nat, j < a.m_size → a.index mem j = b.index mem j) :
    a.op_eq mem b = some true := by
  obtain ⟨e, he, hiff⟩ := eqLoop_spec mem a b ha hb hsz.symm (a.m_size + 1) 0 (by omega)
    (by omega) (fun j hj => absurd hj (Nat.not_lt_zero j))
  unfold StringSlice.op_eq
  rw [if_neg (by omega), he, hiff.mpr hbytes]

theorem op_eq_self (mem : Mem) (a : StringSlice) (ha : Readable mem a) :
    a.op_eq mem a = some true :=
  op_eq_true_of mem a a ha ha rfl (fun _ _ => rfl)

/-- C15. `strip` is idempotent: for a readable view `s`, `s.strip()` returns a view `t`,
`t.strip()` returns a view `u`, and `u == t` is true; `u` is in fact the same view as `t`
(same `data()` and same size). -/
theorem strip_idempotent (mem : Mem) (s : StringSlice) (hs : Readable mem s) :
    ∃ t u : StringSlice, s.strip mem = some t ∧ t.strip mem = some u ∧
      u.op_eq mem t = some true ∧ u = t := by
  obtain ⟨k, n1, hk, hn1, hst, h1, h2, h3, h4⟩ := strip_core mem s hs
  have ht : Readable mem ⟨s.m_str + (k : Int), n1 - k⟩ :=
    readable_sub mem s hs k (n1 - k) (by omega)
  obtain ⟨k2, n2, hk2, hn2, hst2, g1, g2, g3, g4⟩ := strip_core mem _ ht
  simp only at hn2 hst2 g2
  have hk20 : k2 = 0 := by
    by_contra hne
    have a := g1 0 (by omega)
    rw [index_sub] at a
    exact ws_contra a (h3 (by omega))
  have hn2e : n2 = n1 - k := by
    by_contra hne
    have a := g2 (n1 - k - 1) (by omega) (by omega)
    rw [index_sub] at a
    have e : k + (n1 - k - 1) = n1 - 1 := by omega
    rw [e] at a
    exact ws_contra a (h4 (by omega))
  subst hk20 hn2e
  have hu : (⟨s.m_str + (k : Int) + ((0 : Nat) : Int), n1 - k - 0⟩ : StringSlice)
      = ⟨s.m_str + (k : Int), n1 - k⟩ := by
    simp
  rw [hu] at hst2
  exact ⟨_, _, hst, hst2, op_eq_self mem _ ht, rfl⟩

theorem strip_idempotent_witness :
    Readable memStrip ⟨100, 8⟩ ∧
    ∃ t u : StringSlice, StringSlice.strip memStrip ⟨100, 8⟩ = some t ∧
      t.strip memStrip = some u ∧ u.op_eq memStrip t = some true ∧ u = t :=
  ⟨by decide, strip_idempotent memStrip ⟨100, 8⟩ (by decide)⟩

/-- C16. For a readable view `s`: `s.rstrip().lstrip()` and `s.lstrip().rstrip()` both
return, the two results compare equal with `==`, and each compares equal to `s.strip()`.
Trimming one end leaves the other end where it was: `rstrip` keeps `data()`, `lstrip`
keeps the end `data() + size()`. -/
theorem strip_order (mem : Mem) (s : StringSlice) (hs : Readable mem s) :
    ∃ r a l b t : StringSlice,
      s.rstrip mem = some r ∧ r.lstrip mem = some a ∧
      s.lstrip mem = some l ∧ l.rstrip mem = some b ∧
      s.strip mem = some t ∧
      a.op_eq mem b = some true ∧ a.op_eq mem t = some true ∧ b.op_eq mem t = some true ∧
      r.data = s.data ∧ b.data = l.data ∧
      l.data + (l.size : Int) = s.data + (s.size : Int) ∧
      a.data + (a.size : Int) = r.data + (r.size : Int) := by
  obtain ⟨n1, hn1, hr, hr1, hr2⟩ := rstrip_core mem s hs
  have hrR : Readable mem ⟨s.m_str, n1⟩ := readable_initial mem s hs n1 hn1
  obtain ⟨k1, hk1, ha, ha1, ha2⟩ := lstrip_core mem _ hrR
  simp only at hk1 ha ha2
  obtain ⟨k, hk, hl, hl1, hl2⟩ := lstrip_core mem s hs
  have hlR : Readable mem ⟨s.m_str + (k : Int), s.m_size - k⟩ :=
    readable_sub mem s hs k (s.m_size - k) (by omega)
  obtain ⟨n2, hn2, hb, hb1, hb2⟩ := rstrip_core mem _ hlR
  simp only at hn2 hb hb1
  have haR : Readable mem ⟨s.m_str + (k1 : Int), n1 - k1⟩ :=
    readable_sub mem s hs k1 (n1 - k1) (by omega)
  have hbR : Readable mem ⟨s.m_str + (k : Int), n2⟩ :=
    readable_sub mem s hs k n2 (by omega)
  have hstrip : s.strip mem = some ⟨s.m_str + (k1 : Int), n1 - k1⟩ := by
    unfold StringSlice.strip
    rw [hr]
    exact ha
  -- facts about the second trim, stated on the bytes of `s`
  have hb1s : ∀ j : Nat, n2 ≤ j → j < s.m_size - k →
      (s.index mem (k + j)).map is_whitespace = some true := by
    intro j h1 h2
    have := hb1 j h1 h2
    rw [index_sub] at this
    exact this
  have hb2s : 0 < n2 → (s.index mem (k + (n2 - 1))).map is_whitespace = some false := by
    intro h
    have := hb2 h
    rw [index_sub] at this
    exact this
  have hab : StringSlice.op_eq mem ⟨s.m_str + (k1 : Int), n1 - k1⟩ ⟨s.m_str + (k : Int), n2⟩
      = some true := by
    by_cases h0 : n1 = 0
    · -- every byte of `s` is whitespace: both results are empty
      have hkn : k = s.m_size := by
        by_contra hne
        exact ws_contra (hr1 k (by omega) (by omega)) (hl2 (by omega))
      apply op_eq_true_of mem _ _ haR hbR
      · show n1 - k1 = n2
        omega
      · intro j hj
        simp only at hj
        omega
    · have hlast := hr2 (by omega)
      have hkl : k < n1 := by
        by_contra hne
        exact ws_contra (hl1 (n1 - 1) (by omega)) hlast
      have hk1l : k1 < n1 := by
        by_contra hne
        exact ws_contra (ha1 (n1 - 1) (by omega)) hlast
      have hfirst1 := ha2 hk1l
      have hfirst := hl2 (by omega)
      have ek : k1 = k := by
        rcases Nat.lt_trichotomy k1 k with c | c | c
        · exact (ws_contra (hl1 k1 c) hfirst1).elim
        · exact c
        · exact (ws_contra (ha1 k c) hfirst).elim
      have hn2pos : 0 < n2 := by
        by_contra hne
        have := hb1s (n1 - 1 - k) (by omega) (by omega)
        have e : k + (n1 - 1 - k) = n1 - 1 := by omega
        rw [e] at this
        exact ws_contra this hlast
      have hlast2 := hb2s hn2pos
      have en : k + n2 = n1 := by
        rcases Nat.lt_trichotomy (k + n2) n1 with c | c | c
        · have := hb1s (n1 - 1 - k) (by omega) (by omega)
          have e : k + (n1 - 1 - k) = n1 - 1 := by omega
          rw [e] at this
          exact (ws_contra this hlast).elim
        · exact c
        · exact (ws_contra (hr1 (k + (n2 - 1)) (by omega) (by omega)) hlast2).elim
      have e2 : n1 - k = n2 := by omega
      rw [ek, e2]
      exact op_eq_self mem _ hbR
  have hat := op_eq_self mem _ haR
  have hbt : StringSlice.op_eq mem ⟨s.m_str + (k : Int), n2⟩ ⟨s.m_str + (k1 : Int), n1 - k1⟩
      = some true := by
    -- `==` is symmetric on equal contents: read the two facts off `hab`
    obtain ⟨e, he, hiff⟩ := eqLoop_spec mem ⟨s.m_str + (k1 : Int), n1 - k1⟩
      ⟨s.m_str + (k : Int), n2⟩ haR hbR
      (by
        by_contra hne
        unfold StringSlice.op_eq at hab
        rw [if_pos hne] at hab
        cases hab)
      (n1 - k1 + 1) 0 (by simp only; omega) (by simp only; omega)
      (fun j hj => absurd hj (Nat.not_lt_zero j))
    have hsz : n2 = n1 - k1 := by
      by_contra hne
      unfold StringSlice.op_eq at hab
      rw [if_pos hne] at hab
      cases hab
    have het : e = true := by
      unfold StringSlice.op_eq at hab
      rw [if_neg (by simp only; omega)] at hab
      have := he.symm.trans hab
      exact Option.some.inj this
    have hall := hiff.mp het
    apply op_eq_true_of mem _ _ hbR haR (by simp only; omega)
    intro j hj
    exact (hall j (by simp only at hj ⊢; omega)).symm
  refine ⟨_, _, _, _, _, hr, ha, hl, hb, hstrip, hab, hat, hbt, rfl, rfl, ?_, ?_⟩
  · simp only [StringSlice.data, StringSlice.size]
    omega
  · simp only [StringSlice.data, StringSlice.size]
    omega

theorem strip_order_witness :
    Readable memStrip ⟨100, 8⟩ ∧
    ∃ r a l b t : StringSlice,
      StringSlice.rstrip memStrip ⟨100, 8⟩ = some r ∧ r.lstrip memStrip = some a ∧
      StringSlice.lstrip memStrip ⟨100, 8⟩ = some l ∧ l.rstrip memStrip = some b ∧
      StringSlice.strip memStrip ⟨100, 8⟩ = some t ∧
      a.op_eq memStrip b = some true ∧ a.op_eq memStrip t = some true ∧
      b.op_eq memStrip t = some true :=
  ⟨by decide,
    (strip_order memStrip ⟨100, 8⟩ (by decide)).imp (fun _ h => h.imp (fun _ h => h.imp
      (fun _ h => h.imp (fun _ h => h.imp (fun _ g =>
        ⟨g.1, g.2.1, g.2.2.1, g.2.2.2.1, g.2.2.2.2.1, g.2.2.2.2.2.1, g.2.2.2.2.2.2.1,
          g.2.2.2.2.2.2.2.1⟩)))))⟩

/-! ## Algebra of compare and substr -/

theorem first_difference (mem : Mem) (a b : StringSlice)
    (h : ¬ ∀ j : Nat, j < a.size → j < b.size → a.index mem j = b.index mem j) :
    ∃ i : Nat, i < a.size ∧ i < b.size ∧ a.index mem i ≠ b.index mem i ∧
      ∀ j : Nat, j < i → a.index mem j = b.index mem j := by
  classical
  have hex : ∃ i : Nat, i < a.size ∧ i < b.size ∧ a.index mem i ≠ b.index mem i := by
    by_contra hno
    apply h
    intro j hja hjb
    by_contra hne
    exact hno ⟨j, hja, hjb, hne⟩
  refine ⟨Nat.find hex, (Nat.find_spec hex).1, (Nat.find_spec hex).2.1,
    (Nat.find_spec hex).2.2, ?_⟩
  intro j hj
  by_contra hne
  have hlt := (Nat.find_spec hex)
  exact Nat.find_min hex hj ⟨by omega, by omega, hne⟩

theorem compareSpec_swap (signedChar : Bool) (mem : Mem) (a b : StringSlice)
    (ha : Readable mem a) (hb : Readable mem b) (r1 r2 : Int)
    (h1 : CompareSpec signedChar mem a b r1) (h2 : CompareSpec signedChar mem b a r2) :
    r1 = -r2 := by
  obtain ⟨_, f1, t1⟩ := h1
  obtain ⟨_, f2, t2⟩ := h2
  by_cases tie : ∀ j : Nat, j < a.size → j < b.size → a.index mem j = b.index mem j
  · obtain ⟨p1, p2, p3⟩ := t1 tie
    obtain ⟨q1, q2, q3⟩ := t2 (fun j hjb hja => (tie j hja hjb).symm)
    rcases Nat.lt_trichotomy a.size b.size with c | c | c
    · have u := p1 c
      have v := q2 c
      omega
    · have u := p3 c
      have v := q3 c.symm
      omega
    · have u := p2 c
      have v := q1 c
      omega
  · obtain ⟨i, hia, hib, hne, hpre⟩ := first_difference mem a b tie
    obtain ⟨x, hx⟩ := Option.isSome_iff_exists.mp (ha.2 i hia)
    obtain ⟨y, hy⟩ := Option.isSome_iff_exists.mp (hb.2 i hib)
    have hxy : x ≠ y := by
      intro e
      apply hne
      simp only [StringSlice.index]
      rw [hx, hy, e]
    obtain ⟨l1, g1⟩ := f1 i x y hia hib hpre hx hy hxy
    obtain ⟨l2, g2⟩ := f2 i y x hib hia (fun j hj => (hpre j hj).symm) hy hx (Ne.symm hxy)
    have hc : charToInt signedChar x ≠ charToInt signedChar y :=
      fun e => hxy (charToInt_inj _ _ _ e)
    rcases lt_or_gt_of_ne hc with c | c
    · have u := l1 c
      have v := g2 c
      omega
    · have u := g1 c
      have v := l2 c
      omega

theorem compare_core (signedChar : Bool) (mem : Mem) (a b : StringSlice)
    (ha : Readable mem a) (hb : Readable mem b) :
    ∃ r : Int, a.compare signedChar mem b = some r ∧ CompareSpec signedChar mem a b r :=
  compareLoop_spec signedChar mem a b ha hb (a.m_size + 1) 0 (by omega) (by omega) (by omega)
    (fun j hj => absurd hj (Nat.not_lt_zero j))

/-- C17. For readable views `a` and `b`, with either signedness of `char`: `a.compare(b)`
and `b.compare(a)` both return, and `a.compare(b) == -(b.compare(a))`; `a.compare(a)`
returns `0`. -/
theorem compare_antisymm (signedChar : Bool) (mem : Mem) (a b : StringSlice)
    (ha : Readable mem a) (hb : Readable mem b) :
    ∃ r1 r2 : Int, a.compare signedChar mem b = some r1 ∧
      b.compare signedChar mem a = some r2 ∧ r1 = -r2 ∧
      a.compare signedChar mem a = some 0 := by
  obtain ⟨r1, e1, s1⟩ := compare_core signedChar mem a b ha hb
  obtain ⟨r2, e2, s2⟩ := compare_core signedChar mem b a hb ha
  obtain ⟨r0, e0, s0⟩ := compare_core signedChar mem a a ha ha
  have h0 : r0 = 0 := (s0.2.2 (fun _ _ _ => rfl)).2.2 rfl
  rw [h0] at e0
  exact ⟨r1, r2, e1, e2, compareSpec_swap signedChar mem a b ha hb r1 r2 s1 s2, e0⟩

theorem compare_antisymm_witness :
    Readable memTestTwo ⟨100, 4⟩ ∧ Readable memTestTwo ⟨105, 3⟩ ∧
    ∃ r1 r2 : Int, StringSlice.compare true memTestTwo ⟨100, 4⟩ ⟨105, 3⟩ = some r1 ∧
      StringSlice.compare true memTestTwo ⟨105, 3⟩ ⟨100, 4⟩ = some r2 ∧ r1 = -r2 ∧
      StringSlice.compare true memTestTwo ⟨100, 4⟩ ⟨100, 4⟩ = some 0 :=
  ⟨by decide, by decide,
    compare_antisymm true memTestTwo ⟨100, 4⟩ ⟨105, 3⟩ (by decide) (by decide)⟩

theorem readable_default (mem : Mem) : Readable mem StringSlice.default :=
  ⟨by decide, fun i hi => absurd hi (Nat.not_lt_zero i)⟩

/-- C18. For every readable view `s`, `s.substr(0, s.size()) == s` is true; in particular
for an empty view and for the default-constructed view, in every storage. -/
theorem substr_full (mem : Mem) (s : StringSlice) (hs : Readable mem s) :
    (s.substr 0 s.size).op_eq mem s = some true ∧
    (s.size = 0 → s.substr 0 s.size = StringSlice.default) ∧
    (StringSlice.default.substr 0 StringSlice.default.size).op_eq mem StringSlice.default
      = some true := by
  have hd : (StringSlice.default.substr 0 StringSlice.default.size).op_eq mem
      StringSlice.default = some true := by
    have e : StringSlice.default.substr 0 StringSlice.default.size = StringSlice.default := rfl
    rw [e]
    exact op_eq_self mem _ (readable_default mem)
  have h0 : s.size = 0 → s.substr 0 s.size = StringSlice.default := by
    intro h
    exact substr_of_ge s 0 s.size (by simp only [StringSlice.size] at h; omega)
  refine ⟨?_, h0, hd⟩
  by_cases hz : s.m_size = 0
  · rw [h0 hz]
    exact op_eq_true_of mem _ _ (readable_default mem) hs (by rw [hz]; rfl)
      (fun j hj => absurd hj (Nat.not_lt_zero j))
  · have e : s.substr 0 s.size = s := by
      unfold StringSlice.substr StringSlice.ofPtrSize StringSlice.size
      rw [if_pos (by omega), toSizeType_sub _ _ (Nat.zero_le _) hs.1]
      cases s
      simp
    rw [e]
    exact op_eq_self mem s hs

theorem substr_full_witness :
    Readable memTestTwo ⟨100, 8⟩ ∧
    StringSlice.op_eq memTestTwo
      (StringSlice.substr ⟨100, 8⟩ 0 (StringSlice.size ⟨100, 8⟩)) ⟨100, 8⟩ = some true :=
  ⟨by decide, (substr_full memTestTwo ⟨100, 8⟩ (by decide)).1⟩

/-! ## Construction -/

theorem cstrLoop_spec (mem : Mem) (str : Int) (n : Nat) (h : CStrAt mem str n) :
    ∀ (fuel i : Nat), i ≤ n → n - i < fuel →
      StringSlice.cstrLoop mem fuel (str + (i : Int)) = some (str + (n : Int)) := by
  intro fuel
  induction fuel with
  | zero => intro i _ hf; omega
  | succ m ih =>
    intro i hi hf
    rw [StringSlice.cstrLoop]
    rcases Nat.lt_or_ge i n with c | c
    · obtain ⟨b, hb, hb0⟩ := h.1 i c
      simp only [hb]
      rw [if_pos hb0]
      have e : str + (i : Int) + 1 = str + ((i + 1 : Nat) : Int) := by
        push_cast
        ring
      rw [e]
      exact ih (i + 1) (by omega) (by omega)
    · have e : i = n := by omega
      subst e
      simp only [h.2]
      rw [if_neg (by simp)]

theorem ofCStr_core (mem : Mem) (str : Int) (n fuel : Nat) (h : CStrAt mem str n)
    (hf : n < fuel) :
    StringSlice.ofCStr fuel mem str = some ⟨str, n % sizeMod⟩ := by
  have hl := cstrLoop_spec mem str n h fuel 0 (Nat.zero_le _) (by omega)
  have e0 : str + ((0 : Nat) : Int) = str := by simp
  rw [e0] at hl
  unfold StringSlice.ofCStr
  rw [hl]
  have e : toSizeType (str + (n : Int) - str) = n % sizeMod := by
    have e1 : str + (n : Int) - str = (n : Int) := by ring
    rw [e1]
    unfold toSizeType
    omega
  simp only [Option.map_some', e]

/-- C19 (the claim as stated fails). The size is a 32-bit `size_type`: for the
null-terminated sequence of `2 ^ 32` non-zero bytes at address `100`, whose first zero byte
is at index `2 ^ 32`, the constructor returns a view of size `0`, and the byte just past
that view (index `0`) is `1`, not zero. -/
theorem ofCStr_long_counterexample :
    CStrAt memLong 100 4294967296 ∧
    StringSlice.ofCStr 4294967297 memLong 100 = some ⟨100, 0⟩ ∧
    memLong (100 + ((0 : Nat) : Int)) = some 1 := by
  have hc : CStrAt memLong 100 4294967296 := by
    constructor
    · intro j hj
      refine ⟨1, ?_, by decide⟩
      unfold memLong
      rw [if_pos (by omega)]
    · decide
  refine ⟨hc, ?_, by decide⟩
  have := ofCStr_core memLong 100 4294967296 4294967297 hc (by decide)
  rw [this]
  rfl

/-- C19 (amended). For a null-terminated byte sequence at `str` whose first zero byte is
at index `n`, the constructor `StringSlice(str)` returns (given fuel above `n`) a view
with `data() == str` and size `n mod 2 ^ 32`. When `n < 2 ^ 32` the size is `n`: every
byte of the view is non-zero, the byte just past the view is the zero byte, which is not
included, and the view is readable. -/
theorem ofCStr_spec (mem : Mem) (str : Int) (n fuel : Nat) (h : CStrAt mem str n)
    (hf : n < fuel) :
    ∃ t : StringSlice, StringSlice.ofCStr fuel mem str = some t ∧ t.data = str ∧
      t.size = n % sizeMod ∧
      (n < sizeMod →
        t.size = n ∧
        (∀ j : Nat, j < t.size → ∃ b : Byte, t.index mem j = some b ∧ b ≠ 0) ∧
        t.index mem t.size = some 0 ∧ Readable mem t) := by
  refine ⟨_, ofCStr_core mem str n fuel h hf, rfl, rfl, ?_⟩
  intro hn
  have e : n % sizeMod = n := Nat.mod_eq_of_lt hn
  rw [e]
  refine ⟨rfl, h.1, h.2, hn, ?_⟩
  intro i hi
  obtain ⟨b, hb, _⟩ := h.1 i hi
  show (mem (str + (i : Int))).isSome = true
  rw [hb]
  rfl

theorem ofCStr_spec_witness :
    CStrAt memTestTwo 100 8 ∧ 8 < 9 ∧
    ∃ t : StringSlice, StringSlice.ofCStr 9 memTestTwo 100 = some t ∧ t.data = 100 ∧
      t.size = 8 % sizeMod :=
  ⟨by unfold CStrAt; decide, by decide,
    (ofCStr_spec memTestTwo 100 8 9 (by unfold CStrAt; decide) (by decide)).imp
      (fun _ g => ⟨g.1, g.2.1, g.2.2.1⟩)⟩

/-- C20. For an array at address `str` of declared size `N >= 1` (an `unsigned int`
template argument), `to_slice` returns the view with `data() == str` and size `N - 1`: its
byte at each index `j < N - 1` is the byte of the array at index `j`, whatever its value,
zero included; the byte at the last index `N - 1` is not covered. For `N == 1` the view is
empty. When the array is readable so is the view. -/
theorem to_slice_spec (mem : Mem) (str : Int) (N : Nat) (h1 : 1 ≤ N) (hN : N < sizeMod) :
    (to_slice str N).data = str ∧ (to_slice str N).size = N - 1 ∧
    (∀ j : Nat, j < N - 1 → (to_slice str N).index mem j = mem (str + (j : Int))) ∧
    (N = 1 → (to_slice str N).empty = true) ∧
    (Writable mem str N → Readable mem (to_slice str N)) := by
  have e : to_slice str N = ⟨str, N - 1⟩ := by
    unfold to_slice StringSlice.ofPtrSize
    have := toSizeType_sub N 1 h1 hN
    simp only [Nat.cast_one] at this
    rw [this]
  rw [e]
  refine ⟨rfl, rfl, fun _ _ => rfl, ?_, ?_⟩
  · intro h
    subst h
    rfl
  · intro hw
    refine ⟨by show N - 1 < sizeMod; omega, ?_⟩
    intro i hi
    exact hw i (by simp only at hi; omega)

theorem to_slice_spec_witness :
    1 ≤ 4 ∧ 4 < sizeMod ∧
    (to_slice 100 4).data = 100 ∧ (to_slice 100 4).size = 4 - 1 ∧
    (∀ j : Nat, j < 4 - 1 →
      (to_slice 100 4).index memEmbedded j = memEmbedded (100 + (j : Int))) :=
  ⟨by decide, by decide,
    (to_slice_spec memEmbedded 100 4 (by decide) (by decide)).1,
    (to_slice_spec memEmbedded 100 4 (by decide) (by decide)).2.1,
    (to_slice_spec memEmbedded 100 4 (by decide) (by decide)).2.2.1⟩

/-! ## Derived views stay inside -/

/-- C21. For a readable view `s` covering `[o, o + n)`: each of `s.lstrip()`, `s.rstrip()`,
`s.strip()`, `s.substr(pos, len)` with `pos < n`, and `get_line(s)` returns a view covering
`[o1, o1 + n1)` with `o <= o1` and `o1 + n1 <= o + n`, so of size at most `n`. The values
converted to `size_type` are in range before the conversion: `end - p` in `lstrip`,
`p - m_str` (after `++p`) in `rstrip`, `m_size - pos` in `substr` and `i + 1` in
`get_line` are all in `[0, 2 ^ 32)`. The view to which `strip` applies `lstrip` is
readable, so the same holds for that call. -/
theorem derived_inside (mem : Mem) (s : StringSlice) (pos len : Nat) (hs : Readable mem s) :
    (∃ (t : StringSlice) (p : Int), s.lstrip mem = some t ∧ Inside s t ∧ t.size ≤ s.size ∧
      StringSlice.lstripLoop mem (s.m_str + (s.m_size : Int)) (s.m_size + 1) s.m_str = some p ∧
      0 ≤ s.m_str + (s.m_size : Int) - p ∧
      s.m_str + (s.m_size : Int) - p < (sizeMod : Int)) ∧
    (∃ (t : StringSlice) (p : Int), s.rstrip mem = some t ∧ Inside s t ∧ t.size ≤ s.size ∧
      StringSlice.rstripLoop mem s.m_str (s.m_size + 1) (s.m_str + (s.m_size : Int)) = some p ∧
      0 ≤ p + 1 - s.m_str ∧ p + 1 - s.m_str < (sizeMod : Int)) ∧
    (∃ r t : StringSlice, s.rstrip mem = some r ∧ Readable mem r ∧ s.strip mem = some t ∧
      Inside s t ∧ Inside r t ∧ t.size ≤ s.size) ∧
    (pos < s.size →
      Inside s (s.substr pos len) ∧ (s.substr pos len).size ≤ s.size ∧
      0 ≤ (s.m_size : Int) - (pos : Int) ∧ (s.m_size : Int) - (pos : Int) < (sizeMod : Int)) ∧
    (∃ t : StringSlice, get_line mem s = some t ∧ Inside s t ∧ t.size ≤ s.size ∧
      ∀ i : Nat, i < s.size → i + 1 < sizeMod ∧ (i + 1) % sizeMod = i + 1) := by
  have hsz : s.m_size < sizeMod := hs.1
  simp only [StringSlice.size]
  refine ⟨?_, ?_, ?_, ?_, ?_⟩
  · obtain ⟨k, _, hk2, hk3, _, _⟩ :=
      lstripLoop_spec mem s hs (s.m_size + 1) 0 (by omega) (by omega)
    have e : s.m_str + ((0 : Nat) : Int) = s.m_str := by simp
    rw [e] at hk3
    have hz : toSizeType (s.m_str + (s.m_size : Int) - (s.m_str + (k : Int))) = s.m_size - k := by
      have e1 : s.m_str + (s.m_size : Int) - (s.m_str + (k : Int))
          = (s.m_size : Int) - (k : Int) := by ring
      rw [e1]
      exact toSizeType_sub _ _ hk2 hsz
    have hl : s.lstrip mem = some ⟨s.m_str + (k : Int), s.m_size - k⟩ := by
      unfold StringSlice.lstrip
      simp only [hk3, hz, StringSlice.ofPtrSize]
    refine ⟨_, s.m_str + (k : Int), hl, ?_, ?_, hk3, by omega, by omega⟩
    · unfold Inside
      simp only
      omega
    · show s.m_size - k ≤ s.m_size
      omega
  · obtain ⟨k, hk1, hk2, _, _⟩ :=
      rstripLoop_spec mem s hs (s.m_size + 1) s.m_size (le_refl _) (by omega)
    have hz : toSizeType (s.m_str + (k : Int) - 1 + 1 - s.m_str) = k := by
      have e1 : s.m_str + (k : Int) - 1 + 1 - s.m_str = (k : Int) - ((0 : Nat) : Int) := by
        push_cast
        ring
      rw [e1]
      exact toSizeType_sub k 0 (Nat.zero_le k) (by omega)
    have hr : s.rstrip mem = some ⟨s.m_str, k⟩ := by
      unfold StringSlice.rstrip
      simp only [hk2, hz, StringSlice.ofPtrSize]
    refine ⟨_, s.m_str + (k : Int) - 1, hr, ?_, hk1, hk2, by omega, by omega⟩
    unfold Inside
    simp only
    omega
  · obtain ⟨n1, hn1, hr, _, _⟩ := rstrip_core mem s hs
    have hrR : Readable mem ⟨s.m_str, n1⟩ := readable_initial mem s hs n1 hn1
    obtain ⟨k, hk, hl, _, _⟩ := lstrip_core mem _ hrR
    simp only at hk hl
    have hst : s.strip mem = some ⟨s.m_str + (k : Int), n1 - k⟩ := by
      unfold StringSlice.strip
      rw [hr]
      exact hl
    refine ⟨_, _, hr, hrR, hst, ?_, ?_, ?_⟩
    · unfold Inside
      simp only
      omega
    · unfold Inside
      simp only
      omega
    · show n1 - k ≤ s.m_size
      omega
  · intro hp
    have e : s.substr pos len = ⟨s.m_str + (pos : Int), min len (s.m_size - pos)⟩ := by
      unfold StringSlice.substr StringSlice.ofPtrSize
      rw [if_pos hp, toSizeType_sub _ _ (le_of_lt hp) hsz]
      simp only [StringSlice.mk.injEq, true_and]
      split_ifs <;> omega
    rw [e]
    refine ⟨?_, ?_, by omega, by omega⟩
    · unfold Inside
      simp only
      omega
    · show min len (s.m_size - pos) ≤ s.m_size
      omega
  · have hwrap : ∀ i : Nat, i < s.m_size → i + 1 < sizeMod ∧ (i + 1) % sizeMod = i + 1 := by
      intro i hi
      exact ⟨by omega, Nat.mod_eq_of_lt (by omega)⟩
    rcases get_line_core mem s hs with ⟨n, hn, _, _, hg⟩ | ⟨_, hg⟩
    · refine ⟨_, hg, ?_, by show n + 1 ≤ s.m_size; omega, hwrap⟩
      unfold Inside
      simp only
      omega
    · refine ⟨s, hg, ?_, le_refl _, hwrap⟩
      unfold Inside
      omega

theorem derived_inside_witness :
    Readable memStrip ⟨100, 8⟩ ∧
    (∃ r t : StringSlice, StringSlice.rstrip memStrip ⟨100, 8⟩ = some r ∧
      Readable memStrip r ∧ StringSlice.strip memStrip ⟨100, 8⟩ = some t ∧
      Inside ⟨100, 8⟩ t ∧ Inside r t ∧ t.size ≤ StringSlice.size ⟨100, 8⟩) :=
  ⟨by decide, (derived_inside memStrip ⟨100, 8⟩ 2 3 (by decide)).2.2.1⟩

/-! ## The sentinel of at -/

theorem at_sentinel_iff (signedChar : Bool) (mem : Mem) (s : StringSlice) (i : Nat)
    (hs : Readable mem s) :
    s.at_ signedChar mem i = some (-1) ↔
      (s.size ≤ i ∨ (i < s.size ∧ signedChar = true ∧ s.index mem i = some 255)) := by
  simp only [StringSlice.size]
  by_cases hi : i < s.m_size
  · obtain ⟨b, hb⟩ := Option.isSome_iff_exists.mp (hs.2 i hi)
    have hbl := b.isLt
    have hidx : s.index mem i = some b := hb
    unfold StringSlice.at_
    rw [if_pos hi, hb, hidx]
    simp only [Option.map_some', Option.some.injEq]
    constructor
    · intro h
      right
      refine ⟨hi, ?_, ?_⟩
      · cases signedChar
        · rw [charToInt_unsigned] at h
          omega
        · rfl
      · apply Fin.ext
        cases signedChar
        · rw [charToInt_unsigned] at h
          omega
        · simp only [charToInt, true_and] at h
          split_ifs at h
          all_goals
            show b.val = 255
            omega
    · rintro (h | ⟨_, h1, h2⟩)
      · omega
      · subst h1 h2
        rfl
  · unfold StringSlice.at_
    rw [if_neg hi]
    constructor
    · intro _
      left
      omega
    · intro _
      rfl

/-- C22 (the code fails the claim). With a signed `char`, `at(0)` on the one-byte view
holding `0xff` returns `-1` although index `0` is in range, the same value `at(1)` returns
for the out-of-range index `1`. -/
theorem at_sentinel_collision :
    Readable memFF ⟨100, 1⟩ ∧ 0 < StringSlice.size ⟨100, 1⟩ ∧
    StringSlice.index memFF ⟨100, 1⟩ 0 = some 255 ∧
    StringSlice.at_ true memFF ⟨100, 1⟩ 0 = some (-1) ∧
    StringSlice.at_ true memFF ⟨100, 1⟩ 1 = some (-1) := by
  decide

/-! ## compare is a total preorder -/

theorem lexCmp_trans : ∀ (x y z : List Int),
    (lexCmp x y ≤ 0 → lexCmp y z ≤ 0 → lexCmp x z ≤ 0) ∧
    (lexCmp x y < 0 → lexCmp y z < 0 → lexCmp x z < 0)
  | [], [], [] => by simp [lexCmp]
  | [], [], _ :: _ => by simp [lexCmp]
  | [], _ :: _, [] => by simp [lexCmp]
  | [], _ :: _, _ :: _ => by simp [lexCmp]
  | _ :: _, [], _ => by simp [lexCmp]
  | _ :: _, _ :: _, [] => by simp [lexCmp]
  | a :: xs, b :: ys, c :: zs => by
    have ih := lexCmp_trans xs ys zs
    simp only [lexCmp]
    constructor
    · intro h1 h2
      split_ifs at h1 h2 ⊢
      all_goals omega
    · intro h1 h2
      split_ifs at h1 h2 ⊢
      all_goals omega

theorem compareLoop_lexCmp (signedChar : Bool) (mem : Mem) (a b : StringSlice)
    (ha : Readable mem a) (hb : Readable mem b) :
    ∀ (fuel i : Nat), i ≤ a.m_size → i ≤ b.m_size → a.m_size - i < fuel →
      a.compareLoop signedChar mem b fuel i
        = some (lexCmp (charsFrom signedChar mem (a.m_size - i) (a.m_str + (i : Int)))
            (charsFrom signedChar mem (b.m_size - i) (b.m_str + (i : Int)))) := by
  intro fuel
  induction fuel with
  | zero => intro i _ _ h; omega
  | succ n ih =>
    intro i hia hib hf
    rw [StringSlice.compareLoop]
    by_cases hc : i < a.m_size ∧ i < b.m_size
    · rw [if_pos hc]
      obtain ⟨x, hx⟩ := Option.isSome_iff_exists.mp (ha.2 i hc.1)
      obtain ⟨y, hy⟩ := Option.isSome_iff_exists.mp (hb.2 i hc.2)
      have ea : a.m_size - i = (a.m_size - (i + 1)) + 1 := by omega
      have eb : b.m_size - i = (b.m_size - (i + 1)) + 1 := by omega
      have pa : a.m_str + (i : Int) + 1 = a.m_str + ((i + 1 : Nat) : Int) := by
        push_cast
        ring
      have pb : b.m_str + (i : Int) + 1 = b.m_str + ((i + 1 : Nat) : Int) := by
        push_cast
        ring
      rw [ea, eb]
      simp only [charsFrom, hx, hy, Option.getD_some, lexCmp, pa, pb]
      rw [succ_mod_sizeMod i a.m_size hc.1 ha.1, ih (i + 1) (by omega) (by omega) (by omega)]
      by_cases h1 : charToInt signedChar x - charToInt signedChar y < 0
      · rw [if_pos h1,
          if_pos (show charToInt signedChar x < charToInt signedChar y by omega)]
      · rw [if_neg h1,
          if_neg (show ¬ charToInt signedChar x < charToInt signedChar y by omega)]
        by_cases h2 : charToInt signedChar x - charToInt signedChar y > 0
        · rw [if_pos h2,
            if_pos (show charToInt signedChar y < charToInt signedChar x by omega)]
        · rw [if_neg h2,
            if_neg (show ¬ charToInt signedChar y < charToInt signedChar x by omega)]
    · rw [if_neg hc]
      by_cases h1 : a.m_size < b.m_size
      · rw [if_pos h1]
        have ea : a.m_size - i = 0 := by omega
        have eb : b.m_size - i = (b.m_size - (i + 1)) + 1 := by omega
        rw [ea, eb]
        rfl
      · rw [if_neg h1]
        by_cases h2 : a.m_size > b.m_size
        · rw [if_pos h2]
          have ea : a.m_size - i = (a.m_size - (i + 1)) + 1 := by omega
          have eb : b.m_size - i = 0 := by omega
          rw [ea, eb]
          rfl
        · rw [if_neg h2]
          have ea : a.m_size - i = 0 := by omega
          have eb : b.m_size - i = 0 := by omega
          rw [ea, eb]
          rfl

theorem compare_lexCmp (signedChar : Bool) (mem : Mem) (a b : StringSlice)
    (ha : Readable mem a) (hb : Readable mem b) :
    a.compare signedChar mem b
      = some (lexCmp (charsFrom signedChar mem a.m_size a.m_str)
          (charsFrom signedChar mem b.m_size b.m_str)) := by
  have h := compareLoop_lexCmp signedChar mem a b ha hb (a.m_size + 1) 0 (Nat.zero_le _)
    (Nat.zero_le _) (by omega)
  simp only [Nat.sub_zero, Nat.cast_zero, add_zero] at h
  exact h

/-- C23. For readable views `a`, `b`, `c`, with either signedness of `char`, all the
comparisons return and `compare` is transitive: `a.compare(b) <= 0` and
`b.compare(c) <= 0` give `a.compare(c) <= 0`, and the same with `<` throughout. Hence
`operator<` is transitive and irreflexive, and `operator<=` is transitive, reflexive and
total (`a <= b` or `b <= a`). -/
theorem compare_transitive (signedChar : Bool) (mem : Mem) (a b c : StringSlice)
    (ha : Readable mem a) (hb : Readable mem b) (hc : Readable mem c) :
    ∃ r1 r2 r3 : Int, a.compare signedChar mem b = some r1 ∧
      b.compare signedChar mem c = some r2 ∧ a.compare signedChar mem c = some r3 ∧
      (r1 ≤ 0 → r2 ≤ 0 → r3 ≤ 0) ∧ (r1 < 0 → r2 < 0 → r3 < 0) ∧
      (a.op_le signedChar mem b = some true → b.op_le signedChar mem c = some true →
        a.op_le signedChar mem c = some true) ∧
      (a.op_lt signedChar mem b = some true → b.op_lt signedChar mem c = some true →
        a.op_lt signedChar mem c = some true) ∧
      a.op_lt signedChar mem a = some false ∧ a.op_le signedChar mem a = some true ∧
      (a.op_le signedChar mem b = some true ∨ b.op_le signedChar mem a = some true) := by
  have e1 := compare_lexCmp signedChar mem a b ha hb
  have e2 := compare_lexCmp signedChar mem b c hb hc
  have e3 := compare_lexCmp signedChar mem a c ha hc
  have tr := lexCmp_trans (charsFrom signedChar mem a.m_size a.m_str)
    (charsFrom signedChar mem b.m_size b.m_str) (charsFrom signedChar mem c.m_size c.m_str)
  -- reflexivity and totality, from the order the loop computes
  obtain ⟨r0, e0, s0⟩ := compare_core signedChar mem a a ha ha
  have h0 : r0 = 0 := (s0.2.2 (fun _ _ _ => rfl)).2.2 rfl
  subst h0
  obtain ⟨p, ep, sp⟩ := compare_core signedChar mem a b ha hb
  obtain ⟨q, eq, sq⟩ := compare_core signedChar mem b a hb ha
  have hswap := compareSpec_swap signedChar mem a b ha hb p q sp sq
  refine ⟨_, _, _, e1, e2, e3, tr.1, tr.2, ?_, ?_, ?_, ?_, ?_⟩
  · simp only [StringSlice.op_le, e1, e2, e3, Option.map_some', Option.some.injEq,
      decide_eq_true_eq]
    exact tr.1
  · simp only [StringSlice.op_lt, e1, e2, e3, Option.map_some', Option.some.injEq,
      decide_eq_true_eq]
    exact tr.2
  · simp only [StringSlice.op_lt, e0, Option.map_some', Option.some.injEq]
    decide
  · simp only [StringSlice.op_le, e0, Option.map_some', Option.some.injEq]
    decide
  · simp only [StringSlice.op_le, ep, eq, Option.map_some', Option.some.injEq,
      decide_eq_true_eq]
    omega

theorem compare_transitive_witness :
    Readable memTestTwo ⟨100, 4⟩ ∧ Readable memTestTwo ⟨100, 8⟩ ∧
    Readable memTestTwo ⟨105, 3⟩ ∧
    ∃ r1 r2 r3 : Int, StringSlice.compare true memTestTwo ⟨100, 4⟩ ⟨100, 8⟩ = some r1 ∧
      StringSlice.compare true memTestTwo ⟨100, 8⟩ ⟨105, 3⟩ = some r2 ∧
      StringSlice.compare true memTestTwo ⟨100, 4⟩ ⟨105, 3⟩ = some r3 ∧
      (r1 ≤ 0 → r2 ≤ 0 → r3 ≤ 0) ∧ (r1 < 0 → r2 < 0 → r3 < 0) :=
  ⟨by decide, by decide, by decide,
    (compare_transitive true memTestTwo ⟨100, 4⟩ ⟨100, 8⟩ ⟨105, 3⟩ (by decide) (by decide)
      (by decide)).imp (fun _ h => h.imp (fun _ h => h.imp (fun _ g =>
        ⟨g.1, g.2.1, g.2.2.1, g.2.2.2.1, g.2.2.2.2.1⟩)))⟩

/-! ## Test vectors

Cases of `src/test/StringSlice_test.cpp` and of the scenarios listed in the specification,
evaluated on the model. -/

/-- `"Test Two"`: `at` in and out of range, either signedness. -/
theorem test_at (signedChar : Bool) :
    StringSlice.at_ signedChar memTestTwo ⟨100, 4⟩ 0 = some 84 ∧
    StringSlice.at_ signedChar memTestTwo ⟨100, 4⟩ 3 = some 116 ∧
    StringSlice.at_ signedChar memTestTwo ⟨100, 4⟩ 4 = some (-1) ∧
    StringSlice.at_ signedChar memTestTwo ⟨100, 4⟩ 100 = some (-1) := by
  cases signedChar <;> decide

/-- `"Test"` against `"Test Two"`, `"Two"` and itself; `==` on equal bytes at different
addresses. -/
theorem test_compare :
    StringSlice.compare true memTestTwo ⟨100, 4⟩ ⟨100, 8⟩ = some (-1) ∧
    StringSlice.compare true memTestTwo ⟨100, 8⟩ ⟨100, 4⟩ = some 1 ∧
    StringSlice.compare true memTestTwo ⟨100, 4⟩ ⟨105, 3⟩ = some (-1) ∧
    StringSlice.compare true memTestTwo ⟨100, 4⟩ ⟨100, 4⟩ = some 0 ∧
    StringSlice.compare true memTestTwo ⟨100, 4⟩ StringSlice.default = some 1 ∧
    StringSlice.op_eq memTestTwo ⟨100, 1⟩ ⟨105, 1⟩ = some true ∧
    StringSlice.op_ne memTestTwo ⟨100, 2⟩ ⟨105, 2⟩ = some true ∧
    StringSlice.op_lt true memTestTwo ⟨100, 4⟩ ⟨100, 8⟩ = some true ∧
    StringSlice.op_ge true memTestTwo ⟨100, 4⟩ ⟨100, 8⟩ = some false := by
  decide

/-- `"Bob"` copied to a four-byte and to a two-byte destination; a destination that runs
past the live bytes is undefined behaviour. -/
theorem test_copy_to :
    obs (StringSlice.copy_to memBob ⟨100, 3⟩ 104 4) [104, 105, 106, 107]
      = some (3, [some 66, some 111, some 98, some 0]) ∧
    obs (StringSlice.copy_to memBob ⟨100, 3⟩ 104 2) [104, 105, 106, 107]
      = some (1, [some 66, some 0, some 7, some 7]) ∧
    obs (StringSlice.copy_to memBob ⟨100, 3⟩ 104 1) [104, 105, 106, 107]
      = some (0, [some 0, some 7, some 7, some 7]) ∧
    obs (StringSlice.copy_to memBob ⟨100, 3⟩ 106 4) [106] = none := by
  decide

/-- `Slice("Test Two", 4).find(' ') == npos` and the other `find` cases. -/
theorem test_find :
    StringSlice.find memTestTwo ⟨100, 8⟩ 32 0 = some 4 ∧
    StringSlice.find memTestTwo ⟨100, 4⟩ 32 0 = some npos ∧
    StringSlice.find memTestTwo ⟨100, 8⟩ 90 0 = some npos ∧
    StringSlice.find memTestTwo ⟨100, 8⟩ 32 5 = some npos ∧
    StringSlice.find memTestTwo ⟨100, 8⟩ 32 200 = some npos := by
  decide

/-- `substr` with a size, with a size that is too large, without a size, out of range. -/
theorem test_substr :
    (StringSlice.mk 100 11).substr 5 6 = ⟨105, 6⟩ ∧
    (StringSlice.mk 100 11).substr 5 200 = ⟨105, 6⟩ ∧
    (StringSlice.mk 100 11).substr 2 npos = ⟨102, 9⟩ ∧
    (StringSlice.mk 100 11).substr 200 npos = StringSlice.default ∧
    StringSlice.default.substr 1 2 = StringSlice.default := by
  decide

/-- `"\r\nTest\t "` and its parts under `lstrip`, `rstrip` and `strip`. -/
theorem test_strip :
    StringSlice.lstrip memStrip ⟨100, 8⟩ = some ⟨102, 6⟩ ∧
    StringSlice.lstrip memStrip ⟨100, 2⟩ = some ⟨102, 0⟩ ∧
    StringSlice.lstrip memStrip ⟨102, 4⟩ = some ⟨102, 4⟩ ∧
    StringSlice.lstrip noMem StringSlice.default = some StringSlice.default ∧
    StringSlice.rstrip memStrip ⟨100, 8⟩ = some ⟨100, 6⟩ ∧
    StringSlice.rstrip memStrip ⟨100, 2⟩ = some ⟨100, 0⟩ ∧
    StringSlice.rstrip memStrip ⟨102, 4⟩ = some ⟨102, 4⟩ ∧
    StringSlice.rstrip noMem StringSlice.default = some StringSlice.default ∧
    StringSlice.strip memStrip ⟨100, 8⟩ = some ⟨102, 4⟩ ∧
    StringSlice.strip memStrip ⟨100, 2⟩ = some ⟨100, 0⟩ := by
  decide

/-- Construction from a null-terminated string and from an array, and `get_line`. -/
theorem test_construct_get_line :
    StringSlice.ofCStr 9 memStrip 100 = some ⟨100, 8⟩ ∧
    StringSlice.ofCStr 8 memStrip 100 = none ∧
    to_slice 100 5 = ⟨100, 4⟩ ∧
    to_slice 100 1 = ⟨100, 0⟩ ∧
    get_line memStrip ⟨100, 8⟩ = some ⟨100, 2⟩ ∧
    get_line memStrip ⟨102, 6⟩ = some ⟨102, 6⟩ ∧
    get_line memStrip ⟨102, 0⟩ = some ⟨102, 0⟩ := by
  decide

/-- The scenario `"test\r\nstuff\r\nyep\r\n"`: the three lines, the default view as the
last `rest`, an empty line from an empty `rest`; and `to_slice` on an array with a zero
byte before its last index. -/
theorem test_lines :
    lines memLines 19 ⟨100, 18⟩ = some [⟨100, 6⟩, ⟨106, 7⟩, ⟨113, 5⟩] ∧
    lineStep memLines ⟨100, 18⟩ = some (⟨100, 6⟩, ⟨106, 12⟩) ∧
    lineStep memLines ⟨113, 5⟩ = some (⟨113, 5⟩, StringSlice.default) ∧
    lineStep memLines StringSlice.default
      = some (StringSlice.default, StringSlice.default) ∧
    (to_slice 100 4).index memEmbedded 1 = some 0 ∧
    (to_slice 100 4).index memEmbedded 2 = some 66 := by
  decide

/-- The byte `0xff` under `at`: `255` where `char` is unsigned, `-1` where it is signed. -/
theorem test_at_high :
    StringSlice.at_ false memFF ⟨100, 1⟩ 0 = some 255 ∧
    StringSlice.at_ true memFF ⟨100, 1⟩ 0 = some (-1) ∧
    StringSlice.at_ false memFF ⟨100, 1⟩ 1 = some (-1) := by
  decide

end scottz0r
